/-
Verification of the release-publishing coordinator of makepad-packaging-action.

The definitions below are shallow embeddings of the TypeScript sources:
  * src/utils.ts        (trimToString, normalizeTagName)
  * src/release/index.ts (sanitizeAssetNamePart, normalizeAssetName,
    applyTemplate, renderPattern, ensureUniqueAssetName, buildAssetName,
    filterArtifactsForUpload, uploadReleaseAssets, cleanupDuplicateReleases,
    ensureRelease, uploadUpdaterJson and their helpers)

Strings are modelled as Lean `String`s, with the actual character-level
work done on `List Char` (the `.data` field).  JavaScript regular
expression replaces are rendered as explicit character scans, documented
at each definition.  Remote (GitHub REST) interactions are modelled as a
deterministic state-passing semantics in which every issued request
succeeds; the trace of mutating requests is returned explicitly so that
frame conditions ("no delete was issued") can be stated.
-/
import Mathlib

namespace MakepadPackaging

/-! ## Character-level string utilities -/

/-- JavaScript whitespace characters relevant to `String.prototype.trim`
(ASCII subset; the sources only ever trim ASCII configuration values). -/
def isWsChar (c : Char) : Bool :=
  c = ' ' || c = '\t' || c = '\n' || c = '\x0d' || c = '\x0b' || c = '\x0c'

/-- Trim whitespace from both ends of a character list. -/
def trimL (l : List Char) : List Char :=
  ((l.dropWhile isWsChar).reverse.dropWhile isWsChar).reverse

/-- Embedding of `trimToString` from src/utils.ts restricted to string
inputs (`String(value).trim()`); `none` stands for `undefined`/`null`,
which the source maps to the empty string. -/
def trimToString (v : Option String) : String :=
  match v with
  | none => ""
  | some s => String.mk (trimL s.data)

/-- `startsWithL l p` : does `l` start with `p`?  (JS `String.startsWith`.) -/
def startsWithL : List Char → List Char → Bool
  | _, [] => true
  | [], _ :: _ => false
  | c :: cs, p :: ps => c = p && startsWithL cs ps

/-! ## TagResolver: `normalizeTagName` (src/utils.ts, lines 338-347) -/

/-- Embedding of `normalizeTagName`: trim, then strip one leading
`refs/tags/` or `tags/`. -/
def normalizeTagName (s : String) : String :=
  let t := trimL s.data
  if startsWithL t "refs/tags/".data then
    String.mk (t.drop "refs/tags/".data.length)
  else if startsWithL t "tags/".data then
    String.mk (t.drop "tags/".data.length)
  else
    String.mk t

/-! ### Supporting lemmas about `trimL` -/

theorem trimL_eq_self_parts {t : List Char} (ht : trimL t = t) :
    t.dropWhile isWsChar = t ∧ t.reverse.dropWhile isWsChar = t.reverse := by
  have hsuff : t.dropWhile isWsChar <:+ t := List.dropWhile_suffix _
  have hlen1 : (t.dropWhile isWsChar).length ≤ t.length := hsuff.length_le
  have hlen2 : ((t.dropWhile isWsChar).reverse.dropWhile isWsChar).length ≤
      (t.dropWhile isWsChar).reverse.length :=
    (List.dropWhile_suffix _).length_le
  have hlenEq : ((t.dropWhile isWsChar).reverse.dropWhile isWsChar).length = t.length := by
    have := congrArg List.length ht
    simpa [trimL] using this
  have hfull : (t.dropWhile isWsChar).length = t.length := by
    have h3 : ((t.dropWhile isWsChar).reverse).length = (t.dropWhile isWsChar).length := by
      simp
    omega
  have hdw : t.dropWhile isWsChar = t :=
    List.IsSuffix.eq_of_length hsuff hfull
  refine ⟨hdw, ?_⟩
  have ht' : ((t.reverse.dropWhile isWsChar)).reverse = t := by
    have := ht
    simpa [trimL, hdw] using this
  have := congrArg List.reverse ht'
  simpa using this

theorem trimL_append_of_clean (p t : List Char)
    (hp1 : p.dropWhile isWsChar = p) (hp2 : p.reverse.dropWhile isWsChar = p.reverse)
    (hp3 : p ≠ []) (ht : trimL t = t) :
    trimL (p ++ t) = p ++ t := by
  obtain ⟨h1, h2⟩ := trimL_eq_self_parts ht
  have hpe : p.isEmpty = false := by
    cases p with
    | nil => exact absurd rfl hp3
    | cons a l => rfl
  unfold trimL
  rw [List.dropWhile_append, hp1, hpe]
  simp only [Bool.false_eq_true, if_false]
  rw [List.reverse_append, List.dropWhile_append, h2]
  cases t with
  | nil =>
    simp only [List.reverse_nil, List.isEmpty_nil, if_true, hp2]
    simp
  | cons a l =>
    have : (a :: l).reverse.isEmpty = false := by
      simp [List.isEmpty_iff]
    rw [this]
    simp

theorem startsWithL_append_self (p l : List Char) : startsWithL (p ++ l) p = true := by
  induction p with
  | nil => simp [startsWithL]
  | cons c ps ih => simp [startsWithL, ih]

theorem startsWithL_cons_ne (c d : Char) (l ps : List Char) (h : c ≠ d) :
    startsWithL (c :: l) (d :: ps) = false := by
  simp [startsWithL, h]

/-- C5 counterexample: `normalizeTagName` is not idempotent on every string.
On `"tags/tags/v1"` the first application yields `"tags/v1"`, and a second
application strips again, yielding `"v1"`. -/
theorem normalizeTagName_idempotent_cex :
    normalizeTagName (normalizeTagName "tags/tags/v1") ≠
      normalizeTagName "tags/tags/v1" := by
  decide

/-- C5 (amended): `normalizeTagName` strips one leading `refs/tags/` or
`tags/` prefix from the trimmed input and returns the bare tag, and it is
idempotent on every input whose result is already trimmed and does not
itself start with such a prefix (nested prefixes are stripped once per
application, so full idempotence fails; see the counterexample). -/
theorem normalizeTagName_strip_and_idempotent_amended (s t : String)
    (hs1 : trimL (normalizeTagName s).data = (normalizeTagName s).data)
    (hs2 : startsWithL (normalizeTagName s).data "refs/tags/".data = false)
    (hs3 : startsWithL (normalizeTagName s).data "tags/".data = false)
    (ht : trimL t.data = t.data) :
    normalizeTagName (normalizeTagName s) = normalizeTagName s ∧
    normalizeTagName (String.mk ("refs/tags/".data ++ t.data)) = t ∧
    normalizeTagName (String.mk ("tags/".data ++ t.data)) = t := by
  have fix : ∀ u : String, trimL u.data = u.data →
      startsWithL u.data "refs/tags/".data = false →
      startsWithL u.data "tags/".data = false →
      normalizeTagName u = u := by
    intro u h1 h2 h3
    unfold normalizeTagName
    simp only [h1, h2, h3, Bool.false_eq_true, if_false]
  refine ⟨fix _ hs1 hs2 hs3, ?_, ?_⟩
  · have hclean : trimL ("refs/tags/".data ++ t.data) = "refs/tags/".data ++ t.data :=
      trimL_append_of_clean _ _ (by decide) (by decide) (by decide) ht
    unfold normalizeTagName
    simp only [hclean, startsWithL_append_self, if_true]
    rw [List.drop_left]
  · have hclean : trimL ("tags/".data ++ t.data) = "tags/".data ++ t.data :=
      trimL_append_of_clean _ _ (by decide) (by decide) (by decide) ht
    have hne : startsWithL ("tags/".data ++ t.data) "refs/tags/".data = false := by
      have hcons : "tags/".data ++ t.data = 't' :: ("ags/".data ++ t.data) := rfl
      rw [hcons]
      exact startsWithL_cons_ne _ _ _ _ (by decide)
    unfold normalizeTagName
    simp only [hclean, hne, Bool.false_eq_true, if_false, startsWithL_append_self, if_true]
    rw [List.drop_left]

/-- C5 witness: the amended statement at concrete inputs
`s = "refs/tags/v1.2.3"` and `t = "v9"`. -/
theorem normalizeTagName_strip_and_idempotent_amended_witness :
    normalizeTagName (normalizeTagName "refs/tags/v1.2.3") =
        normalizeTagName "refs/tags/v1.2.3" ∧
    normalizeTagName (String.mk ("refs/tags/".data ++ "v9".data)) = "v9" ∧
    normalizeTagName (String.mk ("tags/".data ++ "v9".data)) = "v9" :=
  normalizeTagName_strip_and_idempotent_amended "refs/tags/v1.2.3" "v9"
    (by decide) (by decide) (by decide) (by decide)

/-! ## Path helpers (model of `node:path` `basename`/`extname`, posix form) -/

/-- Last path segment (posix `basename`): trailing slashes are dropped,
then the part after the last `/` is returned. -/
def basenameL (l : List Char) : List Char :=
  let t := (l.reverse.dropWhile (· = '/')).reverse
  if t.isEmpty then (if l.isEmpty then [] else ['/'])
  else (t.reverse.takeWhile (· ≠ '/')).reverse

/-- Node `extname`: the suffix of the basename from its last `.`, unless
that dot is the basename's first character or the basename is `.`/`..`. -/
def extnameL (l : List Char) : List Char :=
  let b := basenameL l
  if b = ['.'] || b = ['.', '.'] then []
  else
    let revB := b.reverse
    if ('.' : Char) ∈ revB then
      let afterDot := revB.takeWhile (· ≠ '.')
      if afterDot.length + 1 = b.length then []
      else '.' :: afterDot.reverse
    else []

/-- ASCII lower-casing (JS `toLowerCase` restricted to ASCII data). -/
def toLowerL (l : List Char) : List Char := l.map Char.toLower

/-- `getExtensionInfo(path).raw` : the extension without its dot. -/
def extRawOf (l : List Char) : List Char :=
  match extnameL l with
  | '.' :: r => r
  | r => r

/-- `getExtensionInfo(path).lower`. -/
def extLowerOf (l : List Char) : List Char := toLowerL (extRawOf l)

/-! ## Sanitization (src/release/index.ts, lines 541-553) -/

/-- The character class `[A-Za-z0-9._-]` of `sanitizeAssetNamePart`. -/
def sanitizeAllowed (c : Char) : Bool :=
  ('A' ≤ c && c ≤ 'Z') || ('a' ≤ c && c ≤ 'z') || ('0' ≤ c && c ≤ '9') ||
    c = '.' || c = '_' || c = '-'

/-- Replace every maximal run of characters satisfying `p` by a single
`'-'` (the JS regex replace `/(p)+/g → '-'`); `inRun` records whether the
previous character was part of a run. -/
def replaceRunsGo (p : Char → Bool) : Bool → List Char → List Char
  | _, [] => []
  | inRun, c :: rest =>
    if p c then
      if inRun then replaceRunsGo p true rest
      else '-' :: replaceRunsGo p true rest
    else c :: replaceRunsGo p false rest

def replaceRunsWithDash (p : Char → Bool) (l : List Char) : List Char :=
  replaceRunsGo p false l

def isDashChar (c : Char) : Bool := c = '-'

/-- Drop one leading dash (first alternative of `/^-|-$/g`). -/
def dropLeadDash (l : List Char) : List Char :=
  match l with
  | c :: r => if c = '-' then r else c :: r
  | [] => []

/-- The regex replace `/^-|-$/g → ''`: one dash is removed at each edge.
(Faithful for the inputs this is applied to: runs of dashes have already
been collapsed, so each edge carries at most one dash.) -/
def stripEdgeDashes (l : List Char) : List Char :=
  (dropLeadDash ((dropLeadDash l).reverse)).reverse

/-- Embedding of `sanitizeAssetNamePart`: trim, map runs of characters
outside `[A-Za-z0-9._-]` to `-` (regex 1), collapse runs of `-` (regex 2),
strip an edge dash (regex 3); empty results become `undefined`. -/
def sanitizeAssetNamePart (v : Option String) : Option String :=
  let t := (trimToString v).data
  if t.isEmpty then none
  else
    let s := stripEdgeDashes
      (replaceRunsWithDash isDashChar
        (replaceRunsWithDash (fun c => !sanitizeAllowed c) t))
    if s.isEmpty then none else some (String.mk s)

/-- JS `\s` (ASCII subset), shared with `trim`. -/
def isSlashChar (c : Char) : Bool := c = '/' || c = '\\'

/-- Embedding of `normalizeAssetName`: trim, collapse runs of slashes to
`-`, collapse runs of whitespace to `-`. -/
def normalizeAssetNameL (l : List Char) : List Char :=
  replaceRunsWithDash isWsChar (replaceRunsWithDash isSlashChar (trimL l))

/-! ## Template and pattern rendering (src/release/index.ts, 555-574) -/

/-- One pass of `result.split(key).join(value)` (JS `replaceAll`):
non-overlapping left-to-right replacement.  `fuel` bounds the recursion;
`fuel = length of the subject` always suffices since every step consumes
at least one character (patterns are nonempty). -/
def replaceAllGo (pat rep : List Char) : Nat → List Char → List Char
  | _, [] => []
  | 0, l => l
  | Nat.succ fuel, c :: rest =>
    if startsWithL (c :: rest) pat then
      rep ++ replaceAllGo pat rep fuel ((c :: rest).drop pat.length)
    else
      c :: replaceAllGo pat rep fuel rest

def replaceAllL (pat rep l : List Char) : List Char :=
  if pat.isEmpty then l else replaceAllGo pat rep l.length l

/-- Embedding of `applyTemplate`: sequentially replace each placeholder
key by its value, in the insertion order of the `values` record. -/
def applyTemplateL (tmpl : List Char) (vals : List (List Char × List Char)) : List Char :=
  vals.foldl (fun acc kv => replaceAllL kv.1 kv.2 acc) tmpl

/-- `\w` of the bracket-pattern mini-language. -/
def isWordChar (c : Char) : Bool :=
  ('A' ≤ c && c ≤ 'Z') || ('a' ≤ c && c ≤ 'z') || ('0' ≤ c && c ≤ '9') || c = '_'

/-- Embedding of `renderPattern`'s regex scan `/\[(\w+)\]/g`: at `[` read a
maximal nonempty run of word characters followed by `]`; replace by the
value looked up under the lower-cased key, keep the bracketed text when the
key is unknown, and on a failed match re-scan from the next character.
`fuel = length of the subject` suffices (each step consumes ≥ 1 char). -/
def renderPatternGo (vals : List (List Char × List Char)) : Nat → List Char → List Char
  | _, [] => []
  | 0, l => l
  | Nat.succ fuel, c :: rest =>
    if c = '[' then
      match rest.takeWhile isWordChar, rest.dropWhile isWordChar with
      | [], _ => '[' :: renderPatternGo vals fuel rest
      | _ :: _, [] => '[' :: renderPatternGo vals fuel rest
      | w₁ :: w₂, d :: r3 =>
        if d = ']' then
          match (vals.find? (fun kv => kv.1 = toLowerL (w₁ :: w₂))) with
          | some kv => kv.2 ++ renderPatternGo vals fuel r3
          | none => ('[' :: (w₁ :: w₂) ++ [']']) ++ renderPatternGo vals fuel r3
        else '[' :: renderPatternGo vals fuel rest
    else c :: renderPatternGo vals fuel rest

def renderPatternL (pat : List Char) (vals : List (List Char × List Char)) : List Char :=
  renderPatternGo vals pat.length pat

/-! ## Decimal rendering of naturals (JS template `${index}`) -/

def decDigitChar (d : Nat) : Char := Char.ofNat (48 + d)

/-- Fuel-driven decimal renderer; `fuel = n + 1` always suffices. -/
def natToDecGo : Nat → Nat → List Char → List Char
  | 0, _, acc => acc
  | Nat.succ fuel, n, acc =>
    if n < 10 then decDigitChar (n % 10) :: acc
    else natToDecGo fuel (n / 10) (decDigitChar (n % 10) :: acc)

/-- Decimal numeral of a natural number, embedding JS number-to-string
for the non-negative integers used as collision-suffix indices. -/
def natToDec (n : Nat) : List Char := natToDecGo (n + 1) n []

/-! ## Data model (src/types.d.ts) -/

inductive TargetPlatform
  | windows | linux | macos | android | ios | ohos
deriving DecidableEq, Repr

inductive TargetArch
  | x86_64 | aarch64 | armv7 | i686
deriving DecidableEq, Repr

inductive BuildMode
  | debug | release
deriving DecidableEq, Repr

def platformStr : TargetPlatform → String
  | .windows => "windows"
  | .linux => "linux"
  | .macos => "macos"
  | .android => "android"
  | .ios => "ios"
  | .ohos => "ohos"

def archStr : TargetArch → String
  | .x86_64 => "x86_64"
  | .aarch64 => "aarch64"
  | .armv7 => "armv7"
  | .i686 => "i686"

def modeStr : BuildMode → String
  | .debug => "debug"
  | .release => "release"

structure Artifact where
  path : String
  mode : BuildMode
  version : String
  platform : TargetPlatform
  arch : TargetArch
deriving DecidableEq, Repr

/-! ## `buildAssetName` (src/release/index.ts, lines 640-710) -/

structure AssetNameParams where
  artifact : Artifact
  uploadPath : String
  assetNameTemplate : Option String := none
  releaseAssetNamePattern : Option String := none
  assetPfx : Option String := none
  appName : Option String := none
  appVersion : Option String := none
deriving DecidableEq, Repr

/-- Option-to-characters: a missing sanitized part is the empty string
(`?? ''` in the source). -/
def partChars (o : Option String) : List Char :=
  match o with
  | some s => s.data
  | none => []

/-- `parts.join('-')`. -/
def joinDash : List (List Char) → List Char
  | [] => []
  | [x] => x
  | x :: y :: rest => x ++ '-' :: joinDash (y :: rest)

/-- The five candidate parts of the default asset name, already filtered
for non-emptiness (`[...].filter(Boolean)`). -/
def defaultNameParts (p : AssetNameParams) : List (List Char) :=
  [partChars (sanitizeAssetNamePart p.appName),
   partChars (sanitizeAssetNamePart p.appVersion),
   partChars (sanitizeAssetNamePart (some (platformStr p.artifact.platform))),
   partChars (sanitizeAssetNamePart (some (archStr p.artifact.arch))),
   partChars (sanitizeAssetNamePart (some (modeStr p.artifact.mode)))].filter
    (fun x => !x.isEmpty)

/-- Embedding of `buildAssetName`. -/
def buildAssetName (p : AssetNameParams) : String :=
  let extRaw := extRawOf p.uploadPath.data
  let uploadFilename := basenameL p.uploadPath.data
  let uploadBasename :=
    if extRaw.isEmpty then uploadFilename
    else uploadFilename.take (uploadFilename.length - (extRaw.length + 1))
  let vAPP := partChars (sanitizeAssetNamePart p.appName)
  let vVERSION := partChars (sanitizeAssetNamePart p.appVersion)
  let vPLATFORM := partChars (sanitizeAssetNamePart (some (platformStr p.artifact.platform)))
  let vARCH := partChars (sanitizeAssetNamePart (some (archStr p.artifact.arch)))
  let vMODE := partChars (sanitizeAssetNamePart (some (modeStr p.artifact.mode)))
  let vEXT := partChars (sanitizeAssetNamePart (some (String.mk extRaw)))
  let vFILENAME := partChars (sanitizeAssetNamePart (some (String.mk uploadFilename)))
  let vBASENAME := partChars (sanitizeAssetNamePart (some (String.mk uploadBasename)))
  let name :=
    match p.assetNameTemplate with
    | some tmpl =>
      applyTemplateL tmpl.data
        [("__APP__".data, vAPP), ("__VERSION__".data, vVERSION),
         ("__PLATFORM__".data, vPLATFORM), ("__ARCH__".data, vARCH),
         ("__MODE__".data, vMODE), ("__EXT__".data, vEXT),
         ("__FILENAME__".data, vFILENAME), ("__BASENAME__".data, vBASENAME)]
    | none =>
      match p.releaseAssetNamePattern with
      | some pat =>
        renderPatternL pat.data
          [("app".data, vAPP), ("name".data, vAPP), ("version".data, vVERSION),
           ("platform".data, vPLATFORM), ("arch".data, vARCH),
           ("mode".data, vMODE), ("ext".data, vEXT),
           ("filename".data, vFILENAME), ("basename".data, vBASENAME)]
      | none =>
        let parts := defaultNameParts p
        let base :=
          if parts.isEmpty then (if vBASENAME.isEmpty then uploadBasename else vBASENAME)
          else joinDash parts
        if extRaw.isEmpty then base else base ++ '.' :: extRaw
  let name2 :=
    match sanitizeAssetNamePart p.assetPfx with
    | some pfxS => pfxS.data ++ '-' :: name
    | none => name
  let normalized := normalizeAssetNameL name2
  if normalized.isEmpty then String.mk uploadFilename else String.mk normalized

/-! ## `ensureUniqueAssetName` (src/release/index.ts, lines 576-592) -/

/-- The collision candidate `` `${base}-${index}${ext}` ``. -/
def mkCand (base extD : List Char) (k : Nat) : List Char :=
  base ++ '-' :: (natToDec k ++ extD)

/-- The `while (used.has(candidate))` loop: try indices `k, k+1, …`;
`fuel = used.length + 1` always suffices (pigeonhole, proved below). -/
def findSuffixGo (base extD : List Char) (used : List String) : Nat → Nat → List Char
  | 0, k => mkCand base extD k
  | Nat.succ fuel, k =>
    if String.mk (mkCand base extD k) ∈ used then
      findSuffixGo base extD used fuel (k + 1)
    else mkCand base extD k

/-- Embedding of `ensureUniqueAssetName`: returns the chosen name and the
updated used-name set (modelled as a list). -/
def ensureUniqueAssetName (name : String) (used : List String) : String × List String :=
  if name ∈ used then
    let extD := extnameL name.data
    let base := name.data.take (name.data.length - extD.length)
    let cand := String.mk (findSuffixGo base extD used (used.length + 1) 2)
    (cand, cand :: used)
  else (name, name :: used)

/-! ### Shape of sanitized name parts -/

/-- Adjacent double dash detector: `noDDb l` is `true` when `l` has no
two consecutive `-` characters. -/
def noDDb : List Char → Bool
  | c :: d :: r => !(c = '-' && d = '-') && noDDb (d :: r)
  | _ => true

theorem mem_replaceRunsGo (p : Char → Bool) (b : Bool) (l : List Char) :
    ∀ c ∈ replaceRunsGo p b l, c = '-' ∨ (c ∈ l ∧ p c = false) := by
  induction l generalizing b with
  | nil => intro c hc; simp [replaceRunsGo] at hc
  | cons a r ih =>
    intro c hc
    by_cases hpa : p a
    · cases b with
      | true =>
        simp only [replaceRunsGo, hpa, if_true] at hc
        rcases ih true c hc with h | ⟨h1, h2⟩
        · exact Or.inl h
        · exact Or.inr ⟨List.mem_cons_of_mem _ h1, h2⟩
      | false =>
        simp only [replaceRunsGo, hpa, if_true, if_false] at hc
        rcases List.mem_cons.mp hc with h | h
        · exact Or.inl h
        · rcases ih true c h with h' | ⟨h1, h2⟩
          · exact Or.inl h'
          · exact Or.inr ⟨List.mem_cons_of_mem _ h1, h2⟩
    · simp only [replaceRunsGo, hpa, if_false] at hc
      rcases List.mem_cons.mp hc with h | h
      · subst h; exact Or.inr ⟨List.mem_cons_self _ _, by simpa using hpa⟩
      · rcases ih false c h with h' | ⟨h1, h2⟩
        · exact Or.inl h'
        · exact Or.inr ⟨List.mem_cons_of_mem _ h1, h2⟩

theorem head_replaceRunsGo_dash (l : List Char) :
    (replaceRunsGo isDashChar true l).head? ≠ some '-' := by
  induction l with
  | nil => simp [replaceRunsGo]
  | cons a r ih =>
    by_cases ha : isDashChar a
    · simpa [replaceRunsGo, ha] using ih
    · have ha' : a ≠ '-' := by simpa [isDashChar] using ha
      simp [replaceRunsGo, ha, ha']

theorem noDDb_cons (c : Char) (x : List Char)
    (h1 : ∀ d, x.head? = some d → ¬(c = '-' ∧ d = '-'))
    (h2 : noDDb x = true) : noDDb (c :: x) = true := by
  cases x with
  | nil => rfl
  | cons d r =>
    have := h1 d rfl
    simp only [noDDb, Bool.and_eq_true, Bool.not_eq_true']
    refine ⟨?_, h2⟩
    by_cases hc : c = '-'
    · by_cases hd : d = '-'
      · exact absurd ⟨hc, hd⟩ this
      · simp [hc, hd]
    · simp [hc]

theorem noDDb_replaceRunsGo_dash (l : List Char) (b : Bool) :
    noDDb (replaceRunsGo isDashChar b l) = true := by
  induction l generalizing b with
  | nil => cases b <;> rfl
  | cons a r ih =>
    by_cases ha : isDashChar a
    · cases b with
      | true => simpa [replaceRunsGo, ha] using ih true
      | false =>
        simp only [replaceRunsGo, ha, if_true, if_false]
        refine noDDb_cons _ _ ?_ (ih true)
        intro d hd hcd
        exact head_replaceRunsGo_dash r (by rw [hd, hcd.2])
    · simp only [replaceRunsGo, ha, if_false]
      refine noDDb_cons _ _ ?_ (ih false)
      intro d _ hcd
      exact absurd hcd.1 (by simpa [isDashChar] using ha)


theorem noDDb_tail (c : Char) (x : List Char) (h : noDDb (c :: x) = true) :
    noDDb x = true := by
  cases x with
  | nil => rfl
  | cons d r =>
    simp only [noDDb, Bool.and_eq_true] at h
    exact h.2

theorem noDDb_iff_no_double_dash (l : List Char) :
    noDDb l = true ↔ ¬ (['-', '-'] <:+: l) := by
  induction l with
  | nil =>
    simp [noDDb, List.infix_nil]
  | cons c r ih =>
    cases r with
    | nil =>
      simp only [noDDb, true_iff]
      intro h
      have := h.length_le
      simp at this
    | cons d t =>
      constructor
      · intro h hinf
        simp only [noDDb, Bool.and_eq_true, Bool.not_eq_true'] at h
        rcases (List.infix_cons_iff).mp hinf with hpre | hinf'
        · rcases (List.cons_prefix_cons).mp hpre with ⟨hc, hpre2⟩
          rcases (List.cons_prefix_cons).mp hpre2 with ⟨hd, _⟩
          rw [← hc, ← hd] at h
          simp at h
        · exact (ih.mp h.2) hinf'
      · intro h
        have h1 : ¬ (['-', '-'] <:+: d :: t) := fun hx => h ((List.infix_cons_iff).mpr (Or.inr hx))
        have h2 : ¬ (c = '-' ∧ d = '-') := by
          rintro ⟨hc, hd⟩
          exact h ((List.infix_cons_iff).mpr (Or.inl (by rw [hc, hd]; exact ⟨t, rfl⟩)))
        simp only [noDDb, Bool.and_eq_true, Bool.not_eq_true']
        refine ⟨?_, ih.mpr h1⟩
        by_cases hc : c = '-'
        · by_cases hd : d = '-'
          · exact absurd ⟨hc, hd⟩ h2
          · simp [hc, hd]
        · simp [hc]

theorem noDDb_reverse (l : List Char) : noDDb l.reverse = noDDb l := by
  have h1 := noDDb_iff_no_double_dash l
  have h2 := noDDb_iff_no_double_dash l.reverse
  have h3 : (['-', '-'] <:+: l.reverse) ↔ (['-', '-'] <:+: l) := by
    constructor
    · intro h
      have := (List.reverse_infix).mpr h
      simpa using this
    · intro h
      have : (['-', '-'] : List Char).reverse <:+: l.reverse := by
        rw [List.reverse_infix]
        exact h
      simpa using this
  have hiff : (noDDb l.reverse = true) ↔ (noDDb l = true) := by
    rw [noDDb_iff_no_double_dash, noDDb_iff_no_double_dash, h3]
  cases hb : noDDb l with
  | true => exact hiff.mpr hb
  | false =>
    cases hb2 : noDDb l.reverse with
    | false => rfl
    | true => exact absurd (hiff.mp hb2) (by simp [hb])

theorem dropLeadDash_head (l : List Char) (h : noDDb l = true) :
    (dropLeadDash l).head? ≠ some '-' := by
  cases l with
  | nil => simp [dropLeadDash]
  | cons c r =>
    by_cases hc : c = '-'
    · cases r with
      | nil => simp [dropLeadDash, hc]
      | cons d t =>
        simp only [noDDb, Bool.and_eq_true, Bool.not_eq_true'] at h
        have hd : d ≠ '-' := by
          intro hd
          rw [hc, hd] at h
          simp at h
        simp [dropLeadDash, hc, hd]
    · simp [dropLeadDash, hc]

theorem dropLeadDash_noDDb (l : List Char) (h : noDDb l = true) :
    noDDb (dropLeadDash l) = true := by
  cases l with
  | nil => simpa [dropLeadDash] using h
  | cons c r =>
    by_cases hc : c = '-'
    · simp only [dropLeadDash, hc, if_true]
      exact noDDb_tail c r h
    · simpa [dropLeadDash, hc] using h

theorem dropLeadDash_getLast (l : List Char) :
    (dropLeadDash l).getLast? = l.getLast? ∨ dropLeadDash l = [] := by
  cases l with
  | nil => exact Or.inr rfl
  | cons c r =>
    by_cases hc : c = '-'
    · cases r with
      | nil => exact Or.inr (by simp [dropLeadDash, hc])
      | cons d t =>
        left
        simp [dropLeadDash, hc, List.getLast?_cons_cons]
    · left
      simp [dropLeadDash, hc]

theorem dropLeadDash_subset (l : List Char) : ∀ c ∈ dropLeadDash l, c ∈ l := by
  cases l with
  | nil => simp [dropLeadDash]
  | cons a r =>
    by_cases hc : a = '-'
    · intro c hcm
      simp only [dropLeadDash, hc, if_true] at hcm
      exact List.mem_cons_of_mem _ hcm
    · intro c hcm
      simpa [dropLeadDash, hc] using hcm

theorem stripEdgeDashes_props (l : List Char) (h : noDDb l = true) :
    (∀ c ∈ stripEdgeDashes l, c ∈ l) ∧
    noDDb (stripEdgeDashes l) = true ∧
    (stripEdgeDashes l).head? ≠ some '-' ∧
    (stripEdgeDashes l).getLast? ≠ some '-' := by
  set m := dropLeadDash l with hm
  have hmD : noDDb m = true := dropLeadDash_noDDb l h
  have hmH : m.head? ≠ some '-' := dropLeadDash_head l h
  set mr := m.reverse with hmr
  have hmrD : noDDb mr = true := by rw [hmr, noDDb_reverse]; exact hmD
  set k := dropLeadDash mr with hk
  have hkD : noDDb k = true := dropLeadDash_noDDb mr hmrD
  have hkH : k.head? ≠ some '-' := dropLeadDash_head mr hmrD
  have hres : stripEdgeDashes l = k.reverse := rfl
  refine ⟨?_, ?_, ?_, ?_⟩
  · intro c hc
    rw [hres] at hc
    have hc1 : c ∈ k := by simpa using hc
    have hc2 : c ∈ mr := dropLeadDash_subset mr c hc1
    have hc3 : c ∈ m := by simpa [hmr] using hc2
    exact dropLeadDash_subset l c hc3
  · rw [hres, noDDb_reverse]
    exact hkD
  · rw [hres]
    rw [List.head?_reverse]
    rcases dropLeadDash_getLast mr with hg | hg
    · rw [← hk] at hg
      rw [hg, hmr, List.getLast?_reverse]
      exact hmH
    · rw [← hk] at hg
      rw [hg]
      simp
  · rw [hres, List.getLast?_reverse]
    exact hkH

/-- Shape of every defined result of `sanitizeAssetNamePart`: nonempty,
only characters of the allowed class, no double dash, no edge dash. -/
theorem sanitize_part_shape (v : Option String) (s : String)
    (h : sanitizeAssetNamePart v = some s) :
    s.data ≠ [] ∧
    (∀ c ∈ s.data, sanitizeAllowed c = true) ∧
    noDDb s.data = true ∧
    s.data.head? ≠ some '-' ∧
    s.data.getLast? ≠ some '-' := by
  by_cases h1 : ((trimToString v).data).isEmpty
  · simp [sanitizeAssetNamePart, h1] at h
  · by_cases h2 : (stripEdgeDashes
        (replaceRunsWithDash isDashChar
          (replaceRunsWithDash (fun c => !sanitizeAllowed c) (trimToString v).data))).isEmpty
    · simp [sanitizeAssetNamePart, h1, h2] at h
    · have hs : s.data = stripEdgeDashes
          (replaceRunsWithDash isDashChar
            (replaceRunsWithDash (fun c => !sanitizeAllowed c) (trimToString v).data)) := by
        simp only [sanitizeAssetNamePart, h1, h2, Bool.false_eq_true, if_false,
          Option.some.injEq] at h
        rw [← h]
      have hnoDD : noDDb (replaceRunsWithDash isDashChar
          (replaceRunsWithDash (fun c => !sanitizeAllowed c) (trimToString v).data)) = true :=
        noDDb_replaceRunsGo_dash _ false
      have hprops := stripEdgeDashes_props _ hnoDD
      refine ⟨?_, ?_, ?_, ?_, ?_⟩
      · rw [hs]
        intro hemp
        rw [hemp] at h2
        exact h2 rfl
      · intro c hc
        rw [hs] at hc
        have hc1 := hprops.1 c hc
        rcases mem_replaceRunsGo _ _ _ c hc1 with hd | ⟨hc2, _⟩
        · rw [hd]; decide
        · rcases mem_replaceRunsGo _ _ _ c hc2 with hd | ⟨_, hal⟩
          · rw [hd]; decide
          · simpa using hal
      · rw [hs]; exact hprops.2.1
      · rw [hs]; exact hprops.2.2.1
      · rw [hs]; exact hprops.2.2.2

/-- C4 counterexample: with an explicit name template, `buildAssetName`
copies literal template text into the asset name unsanitized, so the
computed name is not restricted to `[A-Za-z0-9._-]`. -/
theorem buildAssetName_sanitized_cex :
    '!' ∈ (buildAssetName
      ⟨⟨"a.dmg", .release, "1.0.0", .macos, .aarch64⟩,
       "a.dmg", some "x!y", none, none, none, none⟩).data ∧
    sanitizeAllowed '!' = false := by
  decide

/-- C4 (amended): the sanitization guarantee (characters restricted to
`[A-Za-z0-9._-]`, runs of other characters collapsed to a single `-`, no
leading or trailing `-`) holds for every sanitized placeholder part, i.e.
for every defined output of `sanitizeAssetNamePart`; `buildAssetName`
applies it to the placeholder values only, not to literal template or
pattern text and not to the raw upload-path extension (see the
counterexample). -/
theorem sanitizeAssetNamePart_sanitized_amended (v : Option String) (s : String)
    (h : sanitizeAssetNamePart v = some s) :
    (∀ c ∈ s.data, sanitizeAllowed c = true) ∧
    noDDb s.data = true ∧
    s.data.head? ≠ some '-' ∧
    s.data.getLast? ≠ some '-' :=
  (sanitize_part_shape v s h).2

/-- C4 witness: the amended statement for the input `" my app! "`, whose
sanitized form is `"my-app"`. -/
theorem sanitizeAssetNamePart_sanitized_amended_witness :
    (∀ c ∈ ("my-app" : String).data, sanitizeAllowed c = true) ∧
    noDDb ("my-app" : String).data = true ∧
    ("my-app" : String).data.head? ≠ some '-' ∧
    ("my-app" : String).data.getLast? ≠ some '-' :=
  sanitizeAssetNamePart_sanitized_amended (some " my app! ") "my-app" (by decide)

/-! ### The default asset name (claim C9 support) -/

theorem replaceRunsWithDash_id (p : Char → Bool) (l : List Char)
    (h : ∀ c ∈ l, p c = false) : replaceRunsWithDash p l = l := by
  unfold replaceRunsWithDash
  induction l with
  | nil => rfl
  | cons a r ih =>
    have ha : p a = false := h a (List.mem_cons_self _ _)
    simp only [replaceRunsGo, ha, Bool.false_eq_true, if_false, List.cons.injEq, true_and]
    exact ih (fun c hc => h c (List.mem_cons_of_mem _ hc))

theorem trimL_id (l : List Char) (h : ∀ c ∈ l, isWsChar c = false) : trimL l = l := by
  have hdw : ∀ (m : List Char), (∀ c ∈ m, isWsChar c = false) → m.dropWhile isWsChar = m := by
    intro m hm
    cases m with
    | nil => rfl
    | cons a r =>
      rw [List.dropWhile_cons]
      simp [hm a (List.mem_cons_self _ _)]
  unfold trimL
  rw [hdw l h, hdw l.reverse (fun c hc => h c (List.mem_reverse.mp hc)), List.reverse_reverse]

theorem normalizeAssetNameL_id (l : List Char)
    (h : ∀ c ∈ l, isWsChar c = false ∧ isSlashChar c = false) :
    normalizeAssetNameL l = l := by
  unfold normalizeAssetNameL
  rw [trimL_id l (fun c hc => (h c hc).1),
    replaceRunsWithDash_id _ l (fun c hc => (h c hc).2),
    replaceRunsWithDash_id _ l (fun c hc => (h c hc).1)]

theorem allowed_not_ws_slash (c : Char) (h : sanitizeAllowed c = true) :
    isWsChar c = false ∧ isSlashChar c = false := by
  constructor
  · by_contra hw
    have hw' : isWsChar c = true := by simpa using hw
    simp only [isWsChar, Bool.or_eq_true, decide_eq_true_eq] at hw'
    rcases hw' with ((((h1|h1)|h1)|h1)|h1)|h1 <;> (subst h1; exact absurd h (by decide))
  · by_contra hw
    have hw' : isSlashChar c = true := by simpa using hw
    simp only [isSlashChar, Bool.or_eq_true, decide_eq_true_eq] at hw'
    rcases hw' with h1|h1 <;> (subst h1; exact absurd h (by decide))

theorem mem_joinDash (L : List (List Char)) :
    ∀ c ∈ joinDash L, c = '-' ∨ ∃ x ∈ L, c ∈ x := by
  induction L with
  | nil => simp [joinDash]
  | cons x rest ih =>
    cases rest with
    | nil =>
      intro c hc
      right
      exact ⟨x, by simp, by simpa [joinDash] using hc⟩
    | cons y t =>
      intro c hc
      simp only [joinDash] at hc
      rcases List.mem_append.mp hc with h | h
      · right; exact ⟨x, List.mem_cons_self _ _, h⟩
      · rcases List.mem_cons.mp h with h | h
        · left; exact h
        · rcases ih c h with h' | ⟨z, hz, hcz⟩
          · left; exact h'
          · right; exact ⟨z, List.mem_cons_of_mem _ hz, hcz⟩

theorem defaultNameParts_chars (p : AssetNameParams) :
    ∀ x ∈ defaultNameParts p, ∀ c ∈ x, sanitizeAllowed c = true := by
  have handle : ∀ (v : Option String) (x : List Char),
      x = partChars (sanitizeAssetNamePart v) → ∀ c ∈ x, sanitizeAllowed c = true := by
    intro v x hv c hc
    cases hs : sanitizeAssetNamePart v with
    | none => rw [hv, hs] at hc; simp [partChars] at hc
    | some s =>
      rw [hv, hs] at hc
      exact (sanitize_part_shape v s hs).2.1 c (by simpa [partChars] using hc)
  intro x hx
  simp only [defaultNameParts, List.mem_filter] at hx
  obtain ⟨hmem, _⟩ := hx
  simp only [List.mem_cons, List.not_mem_nil, or_false] at hmem
  rcases hmem with h|h|h|h|h
  · exact handle _ x h
  · exact handle _ x h
  · exact handle _ x h
  · exact handle _ x h
  · exact handle _ x h

/-- C9: with no name template and no bracket pattern (and no prefix), the
asset name is the non-empty sanitized elements of
`{app, version, platform, arch, mode}` joined with `-`, with the original
file extension appended. -/
theorem buildAssetName_default_rule (p : AssetNameParams)
    (h1 : p.assetNameTemplate = none)
    (h2 : p.releaseAssetNamePattern = none)
    (h3 : p.assetPfx = none)
    (h4 : defaultNameParts p ≠ [])
    (h5 : extRawOf p.uploadPath.data ≠ [])
    (h6 : ∀ c ∈ extRawOf p.uploadPath.data, isWsChar c = false ∧ isSlashChar c = false) :
    buildAssetName p =
      String.mk (joinDash (defaultNameParts p) ++ '.' :: extRawOf p.uploadPath.data) := by
  have hsan : sanitizeAssetNamePart none = none := rfl
  have hpe : (defaultNameParts p).isEmpty = false := by
    cases hdp : defaultNameParts p with
    | nil => exact absurd hdp h4
    | cons a l => rfl
  have hee : (extRawOf p.uploadPath.data).isEmpty = false := by
    cases hde : extRawOf p.uploadPath.data with
    | nil => exact absurd hde h5
    | cons a l => rfl
  have hchars : ∀ c ∈ joinDash (defaultNameParts p) ++ '.' :: extRawOf p.uploadPath.data,
      isWsChar c = false ∧ isSlashChar c = false := by
    intro c hc
    rcases List.mem_append.mp hc with h | h
    · rcases mem_joinDash _ c h with hd | ⟨x, hx, hcx⟩
      · subst hd; exact ⟨by decide, by decide⟩
      · exact allowed_not_ws_slash c (defaultNameParts_chars p x hx c hcx)
    · rcases List.mem_cons.mp h with hd | hd
      · subst hd; exact ⟨by decide, by decide⟩
      · exact h6 c hd
  have hid := normalizeAssetNameL_id _ hchars
  have hne2 : (joinDash (defaultNameParts p) ++ '.' :: extRawOf p.uploadPath.data).isEmpty
      = false := by
    cases hj : joinDash (defaultNameParts p) <;> rfl
  simp only [buildAssetName, h1, h2, h3, hsan, hpe, hee, Bool.false_eq_true, if_false,
    hid, hne2]

/-- C9 witness: the default rule at the spec's example — a single `.dmg`
artifact for macOS/aarch64/release with app `MyApp` version `1.2.3` gets
asset name `MyApp-1.2.3-macos-aarch64-release.dmg`. -/
theorem buildAssetName_default_rule_witness :
    buildAssetName ⟨⟨"MyApp.dmg", .release, "1.2.3", .macos, .aarch64⟩,
      "MyApp.dmg", none, none, none, some "MyApp", some "1.2.3"⟩ =
      "MyApp-1.2.3-macos-aarch64-release.dmg" := by
  have h := buildAssetName_default_rule
    ⟨⟨"MyApp.dmg", .release, "1.2.3", .macos, .aarch64⟩,
      "MyApp.dmg", none, none, none, some "MyApp", some "1.2.3"⟩
    rfl rfl rfl (by decide) (by decide) (by decide)
  rw [h]
  decide

/-! ### Decimal rendering: correctness and injectivity (claim C8 support) -/

theorem natToDecGo_spec :
    ∀ (f n : Nat) (acc : List Char), 0 < n → n < 10 ^ f →
      natToDecGo f n acc = ((Nat.digits 10 n).reverse.map decDigitChar) ++ acc := by
  intro f
  induction f with
  | zero =>
    intro n acc h1 h2
    simp at h2
    omega
  | succ f ih =>
    intro n acc h1 h2
    by_cases hn : n < 10
    · have hdig : Nat.digits 10 n = [n] := by
        rw [Nat.digits_def' (by norm_num : (1:Nat) < 10) h1]
        rw [Nat.div_eq_of_lt hn]
        simp [Nat.mod_eq_of_lt hn]
      simp [natToDecGo, hn, hdig, Nat.mod_eq_of_lt hn]
    · have h10 : 10 ≤ n := le_of_not_lt hn
      have hq : 0 < n / 10 := Nat.div_pos h10 (by norm_num)
      have hqlt : n / 10 < 10 ^ f := by
        rw [Nat.div_lt_iff_lt_mul (by norm_num : (0:Nat) < 10)]
        calc n < 10 ^ (f + 1) := h2
        _ = 10 ^ f * 10 := by ring
      have := ih (n / 10) (decDigitChar (n % 10) :: acc) hq hqlt
      rw [natToDecGo]
      simp only [hn, if_false]
      rw [this]
      rw [Nat.digits_def' (by norm_num : (1:Nat) < 10) h1]
      simp [List.map_append]

theorem natToDec_spec (n : Nat) (h : 0 < n) :
    natToDec n = (Nat.digits 10 n).reverse.map decDigitChar := by
  have hlt : n < 10 ^ (n + 1) :=
    lt_of_lt_of_le (Nat.lt_pow_self (by norm_num) n)
      (Nat.pow_le_pow_right (by norm_num) (Nat.le_succ n))
  simpa using natToDecGo_spec (n + 1) n [] h hlt

theorem decDigitChar_inj_bdd : ∀ d < 10, ∀ e < 10,
    decDigitChar d = decDigitChar e → d = e := by
  decide

theorem decDigitChar_inj (d e : Nat) (hd : d < 10) (he : e < 10)
    (h : decDigitChar d = decDigitChar e) : d = e :=
  decDigitChar_inj_bdd d hd e he h

theorem map_decDigitChar_inj :
    ∀ (xs ys : List Nat), (∀ x ∈ xs, x < 10) → (∀ y ∈ ys, y < 10) →
      xs.map decDigitChar = ys.map decDigitChar → xs = ys := by
  intro xs
  induction xs with
  | nil =>
    intro ys _ _ h
    cases ys with
    | nil => rfl
    | cons y t => simp at h
  | cons x t ih =>
    intro ys hx hy h
    cases ys with
    | nil => simp at h
    | cons y u =>
      simp only [List.map_cons, List.cons.injEq] at h
      have h1 : x = y := decDigitChar_inj x y (hx x (List.mem_cons_self _ _))
        (hy y (List.mem_cons_self _ _)) h.1
      have h2 : t = u := ih u (fun a ha => hx a (List.mem_cons_of_mem _ ha))
        (fun a ha => hy a (List.mem_cons_of_mem _ ha)) h.2
      rw [h1, h2]

theorem natToDec_pos_ne_zero_repr (b : Nat) (hb : 0 < b) : natToDec b ≠ ['0'] := by
  intro h
  rw [natToDec_spec b hb] at h
  have hb0 : b ≠ 0 := Nat.pos_iff_ne_zero.mp hb
  cases hrev : (Nat.digits 10 b).reverse with
  | nil => rw [hrev] at h; simp at h
  | cons d t =>
    rw [hrev] at h
    simp only [List.map_cons, List.cons.injEq] at h
    obtain ⟨h1, h2⟩ := h
    have ht : t = [] := by simpa using h2
    have hdig : Nat.digits 10 b = [d] := by
      have := congrArg List.reverse hrev
      simpa [ht] using this
    have hd10 : d < 10 :=
      Nat.digits_lt_base (by norm_num) (by rw [hdig]; exact List.mem_cons_self _ _)
    have hd0 : d = 0 := by
      have hdd : decDigitChar d = decDigitChar 0 := by
        rw [h1]; rfl
      exact decDigitChar_inj d 0 hd10 (by norm_num) hdd
    have hof := Nat.ofDigits_digits 10 b
    rw [hdig, hd0] at hof
    exact hb0 (by simpa using hof.symm)

theorem natToDec_inj (a b : Nat) (h : natToDec a = natToDec b) : a = b := by
  rcases Nat.eq_zero_or_pos a with ha | ha
  · rcases Nat.eq_zero_or_pos b with hb | hb
    · rw [ha, hb]
    · exfalso
      subst ha
      have h0 : natToDec 0 = ['0'] := rfl
      rw [h0] at h
      exact natToDec_pos_ne_zero_repr b hb h.symm
  · rcases Nat.eq_zero_or_pos b with hb | hb
    · exfalso
      subst hb
      have h0 : natToDec 0 = ['0'] := rfl
      rw [h0] at h
      exact natToDec_pos_ne_zero_repr a ha h
    · rw [natToDec_spec a ha, natToDec_spec b hb] at h
      have h2 : (Nat.digits 10 a).reverse = (Nat.digits 10 b).reverse :=
        map_decDigitChar_inj _ _
          (fun x hx => Nat.digits_lt_base (by norm_num) (List.mem_reverse.mp hx))
          (fun y hy => Nat.digits_lt_base (by norm_num) (List.mem_reverse.mp hy)) h
      have h3 : Nat.digits 10 a = Nat.digits 10 b := by
        have := congrArg List.reverse h2
        simpa using this
      exact Nat.digits.injective 10 h3

theorem mkCand_inj (base extD : List Char) (x y : Nat)
    (h : String.mk (mkCand base extD x) = String.mk (mkCand base extD y)) : x = y := by
  have hl : mkCand base extD x = mkCand base extD y := by injection h
  unfold mkCand at hl
  have h2 := List.append_cancel_left hl
  have h3 : natToDec x ++ extD = natToDec y ++ extD := by
    injection h2
  exact natToDec_inj x y (List.append_cancel_right h3)

theorem exists_free_cand (base extD : List Char) (used : List String) :
    ∃ k, 2 ≤ k ∧ k ≤ used.length + 2 ∧ String.mk (mkCand base extD k) ∉ used := by
  by_contra hcon
  push_neg at hcon
  have hmap : ∀ k ∈ Finset.Icc 2 (used.length + 2),
      String.mk (mkCand base extD k) ∈ used.toFinset := by
    intro k hk
    rw [List.mem_toFinset]
    rw [Finset.mem_Icc] at hk
    exact hcon k hk.1 hk.2
  have hinj : Set.InjOn (fun k => String.mk (mkCand base extD k))
      ↑(Finset.Icc 2 (used.length + 2)) := by
    intro x _ y _ hxy
    exact mkCand_inj base extD x y hxy
  have hcard := Finset.card_le_card_of_injOn _ hmap hinj
  rw [Nat.card_Icc] at hcard
  have h2 : used.toFinset.card ≤ used.length := List.toFinset_card_le used
  omega

theorem findSuffixGo_finds (base extD : List Char) (used : List String) :
    ∀ (f k : Nat), (∃ j, k ≤ j ∧ j < k + f ∧ String.mk (mkCand base extD j) ∉ used) →
    ∃ m, k ≤ m ∧ String.mk (mkCand base extD m) ∉ used ∧
      (∀ i, k ≤ i → i < m → String.mk (mkCand base extD i) ∈ used) ∧
      findSuffixGo base extD used f k = mkCand base extD m := by
  intro f
  induction f with
  | zero =>
    rintro k ⟨j, hj1, hj2, _⟩
    omega
  | succ f ih =>
    rintro k ⟨j, hj1, hj2, hj3⟩
    by_cases hk : String.mk (mkCand base extD k) ∈ used
    · have hjk : j ≠ k := fun he => hj3 (he ▸ hk)
      obtain ⟨m, hm1, hm2, hm3, hm4⟩ := ih (k + 1) ⟨j, by omega, by omega, hj3⟩
      refine ⟨m, by omega, hm2, ?_, ?_⟩
      · intro i hi1 hi2
        rcases Nat.eq_or_lt_of_le hi1 with he | hl
        · rw [he] at hk; exact hk
        · exact hm3 i hl hi2
      · rw [findSuffixGo]
        simp only [hk, if_true]
        exact hm4
    · refine ⟨k, le_refl k, hk, fun i h1 h2 => by omega, ?_⟩
      rw [findSuffixGo]
      simp only [hk, if_false]

/-- C8: asset-name collisions resolve deterministically to the first free
numeric suffix.  The embedding is a pure function, so identical inputs
trivially give identical outputs across runs; the substantive content
proved here: a fresh name is used as-is, and a colliding name receives
the suffix `-m` where `m ≥ 2` is the least index whose candidate is not
yet used (every smaller index ≥ 2 being taken). -/
theorem ensureUniqueAssetName_first_free (name : String) (used : List String) :
    (name ∉ used → ensureUniqueAssetName name used = (name, name :: used)) ∧
    (name ∈ used →
      ∃ m, 2 ≤ m ∧
        (ensureUniqueAssetName name used).1 =
          String.mk (mkCand (name.data.take (name.data.length - (extnameL name.data).length))
            (extnameL name.data) m) ∧
        (ensureUniqueAssetName name used).1 ∉ used ∧
        (∀ i, 2 ≤ i → i < m →
          String.mk (mkCand (name.data.take (name.data.length - (extnameL name.data).length))
            (extnameL name.data) i) ∈ used) ∧
        (ensureUniqueAssetName name used).2 = (ensureUniqueAssetName name used).1 :: used) := by
  constructor
  · intro h
    unfold ensureUniqueAssetName
    simp [h]
  · intro h
    obtain ⟨j, hj1, hj2, hj3⟩ := exists_free_cand
      (name.data.take (name.data.length - (extnameL name.data).length)) (extnameL name.data) used
    obtain ⟨m, hm1, hm2, hm3, hm4⟩ := findSuffixGo_finds _ _ used (used.length + 1) 2
      ⟨j, hj1, by omega, hj3⟩
    refine ⟨m, hm1, ?_, ?_, ?_, ?_⟩
    · unfold ensureUniqueAssetName
      simp only [h, if_true]
      rw [hm4]
    · unfold ensureUniqueAssetName
      simp only [h, if_true]
      rw [hm4]
      exact hm2
    · intro i h1 h2
      exact hm3 i h1 h2
    · unfold ensureUniqueAssetName
      simp only [h, if_true]

/-- C8 witness: `"a.txt"` colliding with `{"a.txt", "a-2.txt"}` resolves to
the first free suffix index. -/
theorem ensureUniqueAssetName_first_free_witness :
    ∃ m, 2 ≤ m ∧
      (ensureUniqueAssetName "a.txt" ["a.txt", "a-2.txt"]).1 =
        String.mk (mkCand (("a.txt" : String).data.take
          (("a.txt" : String).data.length - (extnameL ("a.txt" : String).data).length))
          (extnameL ("a.txt" : String).data) m) ∧
      (ensureUniqueAssetName "a.txt" ["a.txt", "a-2.txt"]).1 ∉ ["a.txt", "a-2.txt"] ∧
      (∀ i, 2 ≤ i → i < m →
        String.mk (mkCand (("a.txt" : String).data.take
          (("a.txt" : String).data.length - (extnameL ("a.txt" : String).data).length))
          (extnameL ("a.txt" : String).data) i) ∈ ["a.txt", "a-2.txt"]) ∧
      (ensureUniqueAssetName "a.txt" ["a.txt", "a-2.txt"]).2 =
        (ensureUniqueAssetName "a.txt" ["a.txt", "a-2.txt"]).1 :: ["a.txt", "a-2.txt"] :=
  (ensureUniqueAssetName_first_free "a.txt" ["a.txt", "a-2.txt"]).2 (by decide)

/-! ## `filterArtifactsForUpload` (src/release/index.ts, lines 594-626) -/

/-- `RECOMMENDED_EXTENSIONS` (lines 527-533); platforms without an entry
(`ohos`) fall back to `[]` via `?? []`. -/
def RECOMMENDED_EXTENSIONS (p : TargetPlatform) : List (List Char) :=
  match p with
  | .macos => ["dmg".data, "pkg".data]
  | .windows => ["msi".data, "exe".data]
  | .linux => ["deb".data, "appimage".data, "rpm".data]
  | .android => ["apk".data]
  | .ios => ["ipa".data]
  | .ohos => []

abbrev GKey := TargetPlatform × TargetArch × BuildMode

/-- The per-group record of the first pass (`groupInfo` map values). -/
structure GroupInfo where
  recommended : List (List Char)
  hasRecommended : Bool
deriving DecidableEq, Repr

/-- `` `${platform}|${arch}|${mode}` `` as a structured key. -/
def groupKey (a : Artifact) : GKey := (a.platform, a.arch, a.mode)

def lookupInfo : List (GKey × GroupInfo) → GKey → Option GroupInfo
  | [], _ => none
  | (k', i) :: rest, k => if k' = k then some i else lookupInfo rest k

def updInfo : List (GKey × GroupInfo) → GKey → GroupInfo → List (GKey × GroupInfo)
  | [], k, i => [(k, i)]
  | (k', i') :: rest, k, i =>
    if k' = k then (k, i) :: rest else (k', i') :: updInfo rest k i

/-- Is this artifact's (lower-cased) extension in its platform's
recommended list? -/
def extInREC (a : Artifact) : Bool :=
  decide (extLowerOf a.path.data ∈ RECOMMENDED_EXTENSIONS a.platform)

/-- One iteration of the first `for` loop of `filterArtifactsForUpload`. -/
def stepInfo (m : List (GKey × GroupInfo)) (a : Artifact) : List (GKey × GroupInfo) :=
  let key := groupKey a
  let info := (lookupInfo m key).getD ⟨RECOMMENDED_EXTENSIONS a.platform, false⟩
  let ext := extLowerOf a.path.data
  let info2 :=
    if !info.recommended.isEmpty && decide (ext ∈ info.recommended) then
      GroupInfo.mk info.recommended true
    else info
  updInfo m key info2

/-- Embedding of `filterArtifactsForUpload`: first pass builds the group
map, second pass keeps an artifact unless its group has a recommended
extension present and the artifact's own extension is not recommended. -/
def filterArtifactsForUpload (artifacts : List Artifact) : List Artifact :=
  let m := artifacts.foldl stepInfo []
  artifacts.filter (fun a =>
    match lookupInfo m (groupKey a) with
    | none => true
    | some info =>
      if info.recommended.isEmpty then true
      else if !info.hasRecommended then true
      else decide (extLowerOf a.path.data ∈ info.recommended))

/-! ### Group-filter characterization (claim C6 support) -/

theorem lookupInfo_updInfo (m : List (GKey × GroupInfo)) (k : GKey) (i : GroupInfo)
    (k' : GKey) :
    lookupInfo (updInfo m k i) k' = if k = k' then some i else lookupInfo m k' := by
  induction m with
  | nil =>
    by_cases h : k = k' <;> simp [updInfo, lookupInfo, h]
  | cons p rest ih =>
    obtain ⟨k0, i0⟩ := p
    simp only [updInfo]
    by_cases h0 : k0 = k
    · simp only [h0, if_true]
      by_cases h1 : k = k'
      · simp [lookupInfo, h1]
      · simp [lookupInfo, h1]
    · simp only [h0, Bool.false_eq_true, if_false]
      by_cases h1 : k0 = k'
      · have h2 : ¬ (k = k') := fun he => h0 (h1.trans he.symm)
        simp [lookupInfo, h1, h2]
      · simp [lookupInfo, h1, ih]

/-- Every stored group record carries its platform's recommended list. -/
def coherentInfo (m : List (GKey × GroupInfo)) : Prop :=
  ∀ k i, lookupInfo m k = some i → i.recommended = RECOMMENDED_EXTENSIONS k.1

theorem coherentInfo_step (m : List (GKey × GroupInfo)) (a : Artifact)
    (h : coherentInfo m) : coherentInfo (stepInfo m a) := by
  intro k i hk
  unfold stepInfo at hk
  rw [lookupInfo_updInfo] at hk
  by_cases hke : groupKey a = k
  · rw [if_pos hke] at hk
    have hrec : ((lookupInfo m (groupKey a)).getD
        ⟨RECOMMENDED_EXTENSIONS a.platform, false⟩).recommended =
        RECOMMENDED_EXTENSIONS a.platform := by
      cases hl : lookupInfo m (groupKey a) with
      | none => rfl
      | some i0 =>
        have := h (groupKey a) i0 hl
        simpa [groupKey] using this
    have hk' := hk
    injection hk' with hk2
    rw [← hk2]
    by_cases hcond : (!((lookupInfo m (groupKey a)).getD
          ⟨RECOMMENDED_EXTENSIONS a.platform, false⟩).recommended.isEmpty &&
        decide (extLowerOf a.path.data ∈ ((lookupInfo m (groupKey a)).getD
          ⟨RECOMMENDED_EXTENSIONS a.platform, false⟩).recommended)) = true
    · simp only [hcond, if_true]
      rw [← hke]
      simpa [groupKey] using hrec
    · simp only [hcond, if_false]
      rw [← hke]
      simpa [groupKey] using hrec
  · rw [if_neg hke] at hk
    exact h k i hk

theorem boolIsEmpty_and_mem (l : List (List Char)) (x : List Char) :
    (!l.isEmpty && decide (x ∈ l)) = decide (x ∈ l) := by
  by_cases hx : x ∈ l
  · have : l.isEmpty = false := by
      cases l with
      | nil => simp at hx
      | cons a t => rfl
    simp [hx, this]
  · simp [hx]

theorem foldl_stepInfo_lookup (processed : List Artifact) :
    ∀ (m : List (GKey × GroupInfo)), coherentInfo m → ∀ key : GKey,
      lookupInfo (List.foldl stepInfo m processed) key =
        match lookupInfo m key with
        | some info =>
          some ⟨RECOMMENDED_EXTENSIONS key.1,
            info.hasRecommended ||
              processed.any (fun b => decide (groupKey b = key) && extInREC b)⟩
        | none =>
          if processed.any (fun b => decide (groupKey b = key)) then
            some ⟨RECOMMENDED_EXTENSIONS key.1,
              processed.any (fun b => decide (groupKey b = key) && extInREC b)⟩
          else none := by
  induction processed with
  | nil =>
    intro m hm key
    simp only [List.foldl_nil]
    cases hl : lookupInfo m key with
    | none => simp
    | some info =>
      have hrec := hm key info hl
      cases info with
      | mk r h =>
        simp only [List.any_nil, Bool.or_false]
        simp only at hrec
        rw [hrec]
  | cons a rest ih =>
    intro m hm key
    rw [List.foldl_cons]
    have hstep := ih (stepInfo m a) (coherentInfo_step m a hm) key
    rw [hstep]
    by_cases hke : groupKey a = key
    · have hplat : a.platform = key.1 := by rw [← hke]; rfl
      cases hl : lookupInfo m key with
      | none =>
        have hl2 : lookupInfo m (groupKey a) = none := by rw [hke]; exact hl
        have hstep2 : lookupInfo (stepInfo m a) key =
            some ⟨RECOMMENDED_EXTENSIONS a.platform, extInREC a⟩ := by
          unfold stepInfo
          rw [lookupInfo_updInfo, if_pos hke, hl2]
          simp only [Option.getD_none]
          rw [boolIsEmpty_and_mem]
          cases hc : extInREC a with
          | true =>
            unfold extInREC at hc
            simp [hc]
          | false =>
            unfold extInREC at hc
            simp [hc]
        rw [hstep2]
        have hany : (a :: rest).any (fun b => decide (groupKey b = key)) = true := by
          simp [List.any_cons, hke]
        rw [if_pos hany]
        simp [List.any_cons, hke, hplat]
      | some i0 =>
        have hl2 : lookupInfo m (groupKey a) = some i0 := by rw [hke]; exact hl
        have hrec : i0.recommended = RECOMMENDED_EXTENSIONS a.platform := by
          exact hm (groupKey a) i0 hl2
        have hstep2 : lookupInfo (stepInfo m a) key =
            some ⟨RECOMMENDED_EXTENSIONS a.platform,
              i0.hasRecommended || extInREC a⟩ := by
          unfold stepInfo
          rw [lookupInfo_updInfo, if_pos hke, hl2]
          simp only [Option.getD_some]
          simp only [hrec, boolIsEmpty_and_mem]
          cases hc : extInREC a with
          | true =>
            unfold extInREC at hc
            simp [hc]
          | false =>
            unfold extInREC at hc
            cases i0 with
            | mk r h =>
              simp only at hrec
              simp [hc, hrec]
        rw [hstep2]
        simp [List.any_cons, hke, hplat, Bool.or_assoc]
    · have hstep2 : lookupInfo (stepInfo m a) key = lookupInfo m key := by
        unfold stepInfo
        rw [lookupInfo_updInfo, if_neg hke]
      rw [hstep2]
      cases hl : lookupInfo m key with
      | none => simp [List.any_cons, hke]
      | some i0 => simp [List.any_cons, hke]

/-- C6: `filterArtifactsForUpload` groups artifacts by
(platform, arch, mode); if some artifact of a group carries a recommended
extension, exactly the recommended-extension artifacts of the group are
kept, otherwise the whole group is kept.  In particular a
macos/aarch64/release group holding an `.app` directory and a `.dmg`
selects only the `.dmg`. -/
theorem filterArtifactsForUpload_recommended :
    (∀ artifacts : List Artifact,
      filterArtifactsForUpload artifacts =
        artifacts.filter (fun a =>
          !(artifacts.any (fun b => decide (groupKey b = groupKey a) && extInREC b)) ||
            extInREC a)) ∧
    filterArtifactsForUpload
        [⟨"MyApp.app", .release, "1.0.0", .macos, .aarch64⟩,
         ⟨"MyApp.dmg", .release, "1.0.0", .macos, .aarch64⟩] =
      [⟨"MyApp.dmg", .release, "1.0.0", .macos, .aarch64⟩] := by
  constructor
  · intro artifacts
    unfold filterArtifactsForUpload
    apply List.filter_congr
    intro a ha
    have hcoh : coherentInfo [] := by
      intro k i h
      simp [lookupInfo] at h
    have hlook := foldl_stepInfo_lookup artifacts [] hcoh (groupKey a)
    have hnil : lookupInfo [] (groupKey a) = none := rfl
    rw [hnil] at hlook
    have hmem : artifacts.any (fun b => decide (groupKey b = groupKey a)) = true := by
      apply List.any_eq_true.mpr
      exact ⟨a, ha, by simp⟩
    simp only [hmem, if_true] at hlook
    rw [hlook]
    by_cases hre : (RECOMMENDED_EXTENSIONS a.platform).isEmpty
    · have hrnil : RECOMMENDED_EXTENSIONS a.platform = [] := List.isEmpty_iff.mp hre
      have hhas : artifacts.any
          (fun b => decide (groupKey b = groupKey a) && extInREC b) = false := by
        apply List.any_eq_false.mpr
        intro b hb hcon
        simp only [Bool.and_eq_true, decide_eq_true_eq] at hcon
        obtain ⟨hkb, hextb⟩ := hcon
        have hpb : b.platform = a.platform := congrArg Prod.fst hkb
        unfold extInREC at hextb
        rw [hpb, hrnil] at hextb
        simp at hextb
      have hre' : (RECOMMENDED_EXTENSIONS (groupKey a).1).isEmpty = true := hre
      simp [hre', hhas]
    · have hre' : (RECOMMENDED_EXTENSIONS (groupKey a).1).isEmpty = false := by
        simpa using hre
      cases hhas : artifacts.any
          (fun b => decide (groupKey b = groupKey a) && extInREC b) with
      | true =>
        simp only [hre', Bool.false_eq_true, if_false, hhas, Bool.not_true,
          Bool.false_or]
        rfl
      | false =>
        simp [hre', hhas]
  · decide

/-! ## Remote store model

GitHub REST interactions are embedded as deterministic state passing: the
store is a `RemoteState`, every request succeeds, and the trace of issued
requests is returned as a list of `ROp`.  `created_at` timestamps are
modelled as numbers (the source parses them with `Date.parse`, absent
values counting as 0). -/

structure RemoteAsset where
  id : Nat
  name : String
  browser_download_url : String
  text : String
deriving DecidableEq, Repr

structure RemoteRelease where
  id : Nat
  html_url : String
  name : Option String
  body : Option String
  draft : Bool
  prerelease : Bool
  tag_name : Option String
  created_at : Option Nat
  assets : List RemoteAsset
deriving DecidableEq, Repr

structure RemoteState where
  releases : List RemoteRelease
  tagRefs : List String
  nextId : Nat
  clock : Nat
deriving DecidableEq, Repr

inductive ROp
  | listReleases
  | getRelByTag (tag : String)
  | getRelease (id : Nat)
  | createRelease (id : Nat)
  | updateRelease (id : Nat)
  | deleteRelease (id : Nat)
  | createRef (ref : String)
  | listAssets (releaseId : Nat)
  | deleteAsset (assetId : Nat)
  | uploadAsset (releaseId : Nat) (name : String)
deriving DecidableEq, Repr

/-- Is the operation a release-level mutation? -/
def ROp.isReleaseMutation : ROp → Bool
  | .createRelease _ => true
  | .updateRelease _ => true
  | .deleteRelease _ => true
  | _ => false

/-- Is the operation any mutation of the remote store? -/
def ROp.isMutation : ROp → Bool
  | .createRelease _ => true
  | .updateRelease _ => true
  | .deleteRelease _ => true
  | .createRef _ => true
  | .deleteAsset _ => true
  | .uploadAsset _ _ => true
  | _ => false

/-- `Date.parse(created_at)`, with `0` for a missing value. -/
def parsedTime (r : RemoteRelease) : Nat := r.created_at.getD 0

/-- Stable insertion of a release into a list sorted by `parsedTime`
(inserted after all entries with time `≤` its own). -/
def insertByTime (r : RemoteRelease) : List RemoteRelease → List RemoteRelease
  | [] => [r]
  | x :: rest =>
    if parsedTime x ≤ parsedTime r then x :: insertByTime r rest
    else r :: x :: rest

/-- Embedding of `sortByCreatedAt`: JS `Array.prototype.sort` with the
comparator `aTime - bTime` is a stable sort by `parsedTime`, rendered
here as stable insertion sort. -/
def sortByCreatedAt (l : List RemoteRelease) : List RemoteRelease :=
  l.foldl (fun acc r => insertByTime r acc) []

/-- All releases whose `tag_name` equals the tag (embedding of
`listReleasesByTag`, the pagination of `octokit.paginate` yielding the
full list). -/
def listReleasesByTag (st : RemoteState) (tagName : String) : List RemoteRelease :=
  st.releases.filter (fun r => r.tag_name = some tagName)

/-! ## `cleanupDuplicateReleases` (src/release/index.ts, lines 454-524) -/

/-- The asset listings inside `cleanupDuplicateReleases` call
`octokit.rest.repos.listReleaseAssets` directly with `per_page: 100` and
no pagination, so only the first 100 assets are visible to it. -/
def firstPageAssetNames (r : RemoteRelease) : List String :=
  (r.assets.take 100).map (fun a => a.name)

/-- The deletion loop of `cleanupDuplicateReleases`: delete every
non-canonical duplicate unless its (first page of) assets holds a name
missing from the canonical release's (first page of) asset names. -/
def cleanupLoop (keepId : Nat) (keepNames : List String) :
    List RemoteRelease → List ROp
  | [] => []
  | r :: rest =>
    if r.id = keepId then cleanupLoop keepId keepNames rest
    else
      let extra := (r.assets.take 100).filter (fun a => decide (a.name ∉ keepNames))
      if extra.isEmpty then
        ROp.listAssets r.id :: ROp.deleteRelease r.id :: cleanupLoop keepId keepNames rest
      else
        ROp.listAssets r.id :: cleanupLoop keepId keepNames rest

/-- Ids of the releases deleted by a trace. -/
def deletedIds (ops : List ROp) : List Nat :=
  ops.filterMap (fun op => match op with | ROp.deleteRelease i => some i | _ => none)

/-- Embedding of `cleanupDuplicateReleases`.  Returns the request trace
and the final store. -/
def cleanupDuplicateReleases (st : RemoteState) (rawTag : String) (keepReleaseId : Nat) :
    List ROp × RemoteState :=
  let tagName := normalizeTagName rawTag
  let tagMatches := listReleasesByTag st tagName
  if tagMatches.length ≤ 1 then ([ROp.listReleases], st)
  else
    let sorted := sortByCreatedAt tagMatches
    match (sorted.find? (fun r => r.id = keepReleaseId)).orElse (fun _ => sorted.head?) with
    | none => ([ROp.listReleases], st)
    | some keep =>
      let keepNames := firstPageAssetNames keep
      let ops := ROp.listReleases :: ROp.listAssets keep.id :: cleanupLoop keep.id keepNames sorted
      let deleted := deletedIds ops
      (ops, { st with releases := st.releases.filter (fun r => decide (r.id ∉ deleted)) })

/-- C1 (code bug): `cleanupDuplicateReleases` reads only the first page
(`per_page: 100`, no pagination) of each duplicate's assets, so a
duplicate holding 101 assets whose first 100 names all occur on the
canonical release is deleted even though its 101st asset name
(`unique.bin` here) is not on the canonical release. -/
theorem cleanupDuplicateReleases_pagination_bug :
    ROp.deleteRelease 2 ∈
      (cleanupDuplicateReleases
        (RemoteState.mk
          [RemoteRelease.mk 1 "u1" none none false false (some "v1") (some 10)
            ((List.range 100).map (fun i =>
              RemoteAsset.mk i (String.mk ('a' :: natToDec i)) "" "")),
           RemoteRelease.mk 2 "u2" none none false false (some "v1") (some 20)
            (((List.range 100).map (fun i =>
              RemoteAsset.mk (200 + i) (String.mk ('a' :: natToDec i)) "" "")) ++
              [RemoteAsset.mk 999 "unique.bin" "" ""])]
          [] 1000 30)
        "v1" 1).1 ∧
    "unique.bin" ∈
      (((List.range 100).map (fun i =>
          RemoteAsset.mk (200 + i) (String.mk ('a' :: natToDec i)) "" "")) ++
        [RemoteAsset.mk 999 "unique.bin" "" ""]).map (fun a => a.name) ∧
    "unique.bin" ∉
      ((List.range 100).map (fun i =>
        RemoteAsset.mk i (String.mk ('a' :: natToDec i)) "" "")).map (fun a => a.name) := by
  decide

/-! ## `ensureRelease` (src/release/index.ts, lines 250-449) -/

/-- JS truthiness of an optional string (`Boolean(s)`). -/
def optTruthy (o : Option String) : Bool :=
  match o with
  | none => false
  | some s => !s.data.isEmpty

/-- JS `a || fallback` for an optional string. -/
def jsOrS (o : Option String) (fallback : String) : String :=
  match o with
  | some s => if s.data.isEmpty then fallback else s
  | none => fallback

/-- Embedding of `getReleaseByTag` (the direct by-tag endpoint): the
release registered for the tag; deterministically the first match. -/
def getRelByTag (st : RemoteState) (tagName : String) : Option RemoteRelease :=
  st.releases.find? (fun r => r.tag_name = some tagName)

/-- Embedding of `findReleaseByTag`: direct lookup first, then the
earliest (by `created_at`, stable) of the listed matches. -/
def findReleaseByTag (st : RemoteState) (tagName : String) : Option RemoteRelease :=
  match getRelByTag st tagName with
  | some r => some r
  | none =>
    match sortByCreatedAt (listReleasesByTag st tagName) with
    | [] => none
    | r :: _ => some r

/-- Embedding of `resolveCanonicalRelease`. -/
def resolveCanonicalRelease (st : RemoteState) (tagName : String) :
    Option RemoteRelease × List RemoteRelease :=
  match sortByCreatedAt (listReleasesByTag st tagName) with
  | [] => (none, [])
  | r :: rest => (some r, rest)

/-- `resolveCanonicalReleaseWithStabilization` polls until two consecutive
listings agree; against a frozen deterministic store the second attempt
always repeats the first, so the poll collapses to a single resolution. -/
def resolveCanonicalReleaseStabilized (st : RemoteState) (tagName : String) :
    Option RemoteRelease × List RemoteRelease :=
  resolveCanonicalRelease st tagName

/-- Embedding of `ensureRelease` over the deterministic store.  The
bounded `retry` waits on `findReleaseByTag` collapse: the store does not
change between attempts, so a `none` lookup stays `none` and the waits
fall through (there are no concurrent writers inside one sequential
execution of the model).  Returns `((id, html_url), trace, store)`. -/
def ensureRelease (st : RemoteState) (rawTag : String)
    (releaseName releaseBody : Option String) (draft prerelease : Bool) :
    (Nat × String) × List ROp × RemoteState :=
  let tagName := normalizeTagName rawTag
  match findReleaseByTag st tagName with
  | some existing =>
    if optTruthy releaseName || optTruthy releaseBody then
      let updated : RemoteRelease :=
        { existing with
          name := some (jsOrS releaseName (jsOrS existing.name tagName)),
          body := (releaseBody <|> existing.body) }
      ((existing.id, existing.html_url),
        [ROp.getRelByTag tagName, ROp.updateRelease existing.id],
        { st with releases :=
            st.releases.map (fun x => if x.id = existing.id then updated else x) })
    else
      ((existing.id, existing.html_url), [ROp.getRelByTag tagName], st)
  | none =>
    let ref :=
      if startsWithL tagName.data "refs/tags/".data then tagName
      else String.mk ("refs/tags/".data ++ tagName.data)
    let refKnown := decide (ref ∈ st.tagRefs)
    let refOps := if refKnown then [] else [ROp.createRef ref]
    let st1 := if refKnown then st else { st with tagRefs := ref :: st.tagRefs }
    let created : RemoteRelease :=
      { id := st1.nextId,
        html_url := String.mk ("release/".data ++ natToDec st1.nextId),
        name := some (jsOrS releaseName tagName),
        body := releaseBody,
        draft := draft,
        prerelease := prerelease,
        tag_name := some tagName,
        created_at := some st1.clock,
        assets := [] }
    let st2 := { st1 with
      releases := st1.releases ++ [created],
      nextId := st1.nextId + 1,
      clock := st1.clock + 1 }
    let ops := (ROp.getRelByTag tagName :: ROp.listReleases :: refOps) ++
      [ROp.createRelease created.id, ROp.listReleases]
    match resolveCanonicalReleaseStabilized st2 tagName with
    | (some canonical, _) =>
      if canonical.id ≠ created.id then
        ((canonical.id, canonical.html_url), ops ++ [ROp.deleteRelease created.id],
          { st2 with releases := st2.releases.filter (fun x => decide (x.id ≠ created.id)) })
      else ((created.id, created.html_url), ops, st2)
    | (none, _) => ((created.id, created.html_url), ops, st2)

theorem find?_of_filter_singleton {α} (p : α → Bool) (l : List α) (r : α)
    (h : l.filter p = [r]) : l.find? p = some r := by
  induction l with
  | nil => simp at h
  | cons a rest ih =>
    by_cases hp : p a
    · rw [List.filter_cons_of_pos hp] at h
      injection h with h1 h2
      rw [List.find?_cons_of_pos _ hp, h1]
    · rw [List.filter_cons_of_neg hp] at h
      rw [List.find?_cons_of_neg _ hp]
      exact ih h

/-- C2: when exactly one release exists for the normalized tag and no
name or body is supplied, two sequential `ensureRelease` calls both
return that release's id, leave the store untouched, and issue no
release create, update, or delete. -/
theorem ensureRelease_idempotent (st : RemoteState) (rawTag : String)
    (draft prerelease : Bool) (r : RemoteRelease)
    (huniq : listReleasesByTag st (normalizeTagName rawTag) = [r]) :
    (ensureRelease st rawTag none none draft prerelease).1.1 = r.id ∧
    (ensureRelease st rawTag none none draft prerelease).2.2 = st ∧
    (∀ op ∈ (ensureRelease st rawTag none none draft prerelease).2.1,
      op.isReleaseMutation = false) ∧
    (ensureRelease ((ensureRelease st rawTag none none draft prerelease).2.2)
        rawTag none none draft prerelease).1.1 = r.id ∧
    (∀ op ∈ (ensureRelease ((ensureRelease st rawTag none none draft prerelease).2.2)
        rawTag none none draft prerelease).2.1,
      op.isReleaseMutation = false) := by
  have hfind : findReleaseByTag st (normalizeTagName rawTag) = some r := by
    unfold findReleaseByTag getRelByTag
    unfold listReleasesByTag at huniq
    rw [find?_of_filter_singleton _ _ _ huniq]
  have heq : ensureRelease st rawTag none none draft prerelease =
      ((r.id, r.html_url), [ROp.getRelByTag (normalizeTagName rawTag)], st) := by
    simp only [ensureRelease, hfind]
    rfl
  refine ⟨?_, ?_, ?_, ?_, ?_⟩
  · rw [heq]
  · rw [heq]
  · rw [heq]
    intro op hop
    simp only [List.mem_singleton] at hop
    rw [hop]
    rfl
  · rw [heq, heq]
  · rw [heq, heq]
    intro op hop
    simp only [List.mem_singleton] at hop
    rw [hop]
    rfl

/-- C2 witness: a store holding exactly one release (id 5) for tag `v1`. -/
theorem ensureRelease_idempotent_witness :
    (ensureRelease
      (RemoteState.mk
        [RemoteRelease.mk 5 "u5" none none false false (some "v1") (some 10) []]
        [] 100 50)
      "v1" none none false false).1.1 = 5 ∧
    (ensureRelease
      (RemoteState.mk
        [RemoteRelease.mk 5 "u5" none none false false (some "v1") (some 10) []]
        [] 100 50)
      "v1" none none false false).2.2 =
      RemoteState.mk
        [RemoteRelease.mk 5 "u5" none none false false (some "v1") (some 10) []]
        [] 100 50 ∧
    (∀ op ∈ (ensureRelease
      (RemoteState.mk
        [RemoteRelease.mk 5 "u5" none none false false (some "v1") (some 10) []]
        [] 100 50)
      "v1" none none false false).2.1, op.isReleaseMutation = false) ∧
    (ensureRelease ((ensureRelease
      (RemoteState.mk
        [RemoteRelease.mk 5 "u5" none none false false (some "v1") (some 10) []]
        [] 100 50)
      "v1" none none false false).2.2) "v1" none none false false).1.1 = 5 ∧
    (∀ op ∈ (ensureRelease ((ensureRelease
      (RemoteState.mk
        [RemoteRelease.mk 5 "u5" none none false false (some "v1") (some 10) []]
        [] 100 50)
      "v1" none none false false).2.2) "v1" none none false false).2.1,
      op.isReleaseMutation = false) :=
  ensureRelease_idempotent
    (RemoteState.mk
      [RemoteRelease.mk 5 "u5" none none false false (some "v1") (some 10) []]
      [] 100 50)
    "v1" false false
    (RemoteRelease.mk 5 "u5" none none false false (some "v1") (some 10) [])
    (by decide)

/-! ## `uploadReleaseAssets` (src/release/index.ts, lines 712-881) -/

structure DiskEntry where
  path : String
  isDir : Bool
  size : Nat
deriving DecidableEq, Repr

def existsOnDisk (disk : List DiskEntry) (p : String) : Bool :=
  disk.any (fun e => e.path = p)

def diskEntry? (disk : List DiskEntry) (p : String) : Option DiskEntry :=
  disk.find? (fun e => e.path = p)

structure UploadCfg where
  assetNameTemplate : Option String := none
  releaseAssetNamePattern : Option String := none
  assetPfx : Option String := none
  appName : Option String := none
  appVersion : Option String := none
  uploadUpdaterSignatures : Bool := true
deriving DecidableEq, Repr

/-- `UploadedReleaseAsset`. -/
structure UploadedRec where
  id : Nat
  name : String
  url : String
  artifact : Artifact
  uploadPath : String
deriving DecidableEq, Repr

def releaseAssetsOf (st : RemoteState) (releaseId : Nat) : List RemoteAsset :=
  match st.releases.find? (fun r => r.id = releaseId) with
  | some r => r.assets
  | none => []

def setReleaseAssets (st : RemoteState) (releaseId : Nat) (assets : List RemoteAsset) :
    RemoteState :=
  { st with releases :=
      st.releases.map (fun r => if r.id = releaseId then { r with assets := assets } else r) }

/-- `uploadAssetWithRetry` against the deterministic store (the retry
succeeds first time): list current assets, delete any existing asset of
the same name, upload the new one. -/
def uploadAssetReplace (st : RemoteState) (releaseId : Nat) (assetName : String) :
    List ROp × RemoteState × RemoteAsset :=
  let current := releaseAssetsOf st releaseId
  let delOps :=
    match current.find? (fun a => a.name = assetName) with
    | some a => [ROp.deleteAsset a.id]
    | none => []
  let afterDel := current.filter (fun a => decide (a.name ≠ assetName))
  let newAsset := RemoteAsset.mk st.nextId assetName
    (String.mk ("bdu/".data ++ assetName.data)) ""
  let st1 := setReleaseAssets { st with nextId := st.nextId + 1 } releaseId
    (afterDel ++ [newAsset])
  (ROp.listAssets releaseId :: delOps ++ [ROp.uploadAsset releaseId assetName], st1, newAsset)

structure UploadLoopState where
  store : RemoteState
  usedNames : List String
  uploaded : List UploadedRec
  trace : List ROp
deriving DecidableEq, Repr

/-- One iteration of the upload `for` loop: zip a directory artifact to a
temporary path, name the asset, upload with replace, then upload a
companion `.sig` if one exists on disk. -/
def processArtifact (disk : List DiskEntry) (cfg : UploadCfg) (releaseId : Nat)
    (ls : UploadLoopState) (a : Artifact) : UploadLoopState :=
  let isDir := ((diskEntry? disk a.path).map (fun e => e.isDir)).getD false
  let uploadPath :=
    if isDir then
      String.mk ("/tmp/makepad-packaging-action/".data ++ basenameL a.path.data ++ ".zip".data)
    else a.path
  let name0 := buildAssetName
    ⟨a, uploadPath, cfg.assetNameTemplate, cfg.releaseAssetNamePattern,
      cfg.assetPfx, cfg.appName, cfg.appVersion⟩
  let named := ensureUniqueAssetName name0 ls.usedNames
  let upl := uploadAssetReplace ls.store releaseId named.1
  let rec1 := UploadedRec.mk upl.2.2.id upl.2.2.name upl.2.2.browser_download_url a uploadPath
  if cfg.uploadUpdaterSignatures && decide (extLowerOf uploadPath.data ≠ "sig".data) then
    let c1 := String.mk (a.path.data ++ ".sig".data)
    let c2 := String.mk (uploadPath.data ++ ".sig".data)
    let cands := if c1 = c2 then [c1] else [c1, c2]
    match cands.find? (fun p => existsOnDisk disk p) with
    | some _ =>
      let named2 := ensureUniqueAssetName (String.mk (named.1.data ++ ".sig".data)) named.2
      let upl2 := uploadAssetReplace upl.2.1 releaseId named2.1
      UploadLoopState.mk upl2.2.1 named2.2 (ls.uploaded ++ [rec1])
        (ls.trace ++ upl.1 ++ upl2.1)
    | none =>
      UploadLoopState.mk upl.2.1 named.2 (ls.uploaded ++ [rec1]) (ls.trace ++ upl.1)
  else
    UploadLoopState.mk upl.2.1 named.2 (ls.uploaded ++ [rec1]) (ls.trace ++ upl.1)

/-- The artifacts selected for upload: group-filtered, and with `.sig`
artifacts dropped when signature upload is disabled. -/
def selectedArtifacts (cfg : UploadCfg) (artifacts : List Artifact) : List Artifact :=
  (filterArtifactsForUpload artifacts).filter
    (fun a => cfg.uploadUpdaterSignatures || decide (extLowerOf a.path.data ≠ "sig".data))

/-- Embedding of `uploadReleaseAssets`: filter, fail fast when a selected
artifact is missing on disk, otherwise run the upload loop. -/
def uploadReleaseAssets (st : RemoteState) (disk : List DiskEntry) (releaseId : Nat)
    (artifacts : List Artifact) (cfg : UploadCfg) :
    List ROp × Except String (List UploadedRec × RemoteState) :=
  let filtered := selectedArtifacts cfg artifacts
  let missing := filtered.filter (fun a => !existsOnDisk disk a.path)
  if !missing.isEmpty then ([], Except.error "Missing artifacts on disk")
  else
    let fin := filtered.foldl (processArtifact disk cfg releaseId)
      (UploadLoopState.mk st [] [] [])
    (fin.trace, Except.ok (fin.uploaded, fin.store))

/-- C7: if any selected artifact is missing on disk, `uploadReleaseAssets`
fails before issuing any remote request: the call throws and the request
trace is empty (no listing, deletion, or upload for any artifact). -/
theorem uploadReleaseAssets_failfast (st : RemoteState) (disk : List DiskEntry)
    (releaseId : Nat) (artifacts : List Artifact) (cfg : UploadCfg)
    (h : ∃ a ∈ selectedArtifacts cfg artifacts, existsOnDisk disk a.path = false) :
    uploadReleaseAssets st disk releaseId artifacts cfg =
      ([], Except.error "Missing artifacts on disk") := by
  obtain ⟨a, ha, hmiss⟩ := h
  have hmem : a ∈ (selectedArtifacts cfg artifacts).filter
      (fun a => !existsOnDisk disk a.path) := by
    rw [List.mem_filter]
    exact ⟨ha, by rw [hmiss]; rfl⟩
  have hne : ((selectedArtifacts cfg artifacts).filter
      (fun a => !existsOnDisk disk a.path)).isEmpty = false := by
    cases hf : (selectedArtifacts cfg artifacts).filter
        (fun a => !existsOnDisk disk a.path) with
    | nil => rw [hf] at hmem; simp at hmem
    | cons x t => rfl
  unfold uploadReleaseAssets
  simp only [hne, Bool.not_false, if_true]

/-- C7 witness: a single selected `.dmg` artifact absent from an empty
disk makes the call fail with no remote requests. -/
theorem uploadReleaseAssets_failfast_witness :
    uploadReleaseAssets (RemoteState.mk [] [] 0 0) [] 7
      [⟨"gone.dmg", .release, "1.0.0", .macos, .aarch64⟩] (UploadCfg.mk none none none none none true) =
      ([], Except.error "Missing artifacts on disk") :=
  uploadReleaseAssets_failfast (RemoteState.mk [] [] 0 0) [] 7
    [⟨"gone.dmg", .release, "1.0.0", .macos, .aarch64⟩] (UploadCfg.mk none none none none none true)
    ⟨⟨"gone.dmg", .release, "1.0.0", .macos, .aarch64⟩, by decide, by decide⟩

/-! ## Updater manifest (src/release/index.ts, lines 883-1362) -/

def endsWithL (l p : List Char) : Bool := startsWithL l.reverse p.reverse

/-- JS `String.prototype.includes`. -/
def containsL : List Char → List Char → Bool
  | [], needle => needle.isEmpty
  | hay@(_ :: t), needle => startsWithL hay needle || containsL t needle

inductive UpdaterPlatformName
  | windows | linux | darwin | android | ios | ohos
deriving DecidableEq, Repr

def updaterPlatformNameStr : UpdaterPlatformName → String
  | .windows => "windows"
  | .linux => "linux"
  | .darwin => "darwin"
  | .android => "android"
  | .ios => "ios"
  | .ohos => "ohos"

/-- `toUpdaterPlatformName` (`macos` publishes as `darwin`). -/
def toUpdaterPlatformName : TargetPlatform → UpdaterPlatformName
  | .macos => .darwin
  | .windows => .windows
  | .linux => .linux
  | .android => .android
  | .ios => .ios
  | .ohos => .ohos

def isSignatureAssetName (name : String) : Bool :=
  endsWithL (toLowerL (trimToString (some name)).data) ".sig".data

def isUpdaterJsonAssetName (name : String) : Bool :=
  toLowerL (trimToString (some name)).data = "latest.json".data

/-- `getLowerAssetSuffix`: `tar.gz` as a compound suffix, else the
lower-cased extension. -/
def getLowerAssetSuffix (fileName : String) : List Char :=
  if endsWithL (toLowerL fileName.data) ".tar.gz".data then "tar.gz".data
  else extLowerOf fileName.data

def appTokBoundary (o : Option Char) : Bool :=
  match o with
  | none => true
  | some d => d = '.' || d = '_' || d = '-'

/-- The regex test `/(^|[._-])app([._-]|$)/` on a lower-cased name. -/
def appTokGo (prev : Option Char) : List Char → Bool
  | [] => false
  | c :: rest =>
    (decide (c = 'a') && startsWithL rest "pp".data &&
      appTokBoundary prev && appTokBoundary ((rest.drop 2).head?)) ||
    appTokGo (some c) rest

def appTokTest (l : List Char) : Bool := appTokGo none l

/-- Embedding of `inferUpdaterFormat`. -/
def inferUpdaterFormat (fileName : String) (platform : Option TargetPlatform) :
    Option String :=
  let lower := toLowerL fileName.data
  let suffix := getLowerAssetSuffix fileName
  if suffix.isEmpty then none
  else if suffix = "exe".data then
    if platform = some TargetPlatform.windows then some "nsis"
    else if containsL lower "setup".data || containsL lower "nsis".data then some "nsis"
    else some "exe"
  else if suffix = "tar.gz".data then
    if platform = some TargetPlatform.macos || appTokTest lower then some "app"
    else some "tar.gz"
  else some (String.mk suffix)

/-- Embedding of `inferPlatformFromAssetName`. -/
def inferPlatformFromAssetName (fileName : String) (format : Option String) :
    Option TargetPlatform :=
  let lower := toLowerL fileName.data
  if containsL lower "windows".data || format = some "nsis" || format = some "msi" ||
      endsWithL lower ".exe".data || endsWithL lower ".msi".data then
    some .windows
  else if containsL lower "android".data || endsWithL lower ".apk".data then
    some .android
  else if containsL lower "ios".data || endsWithL lower ".ipa".data then
    some .ios
  else if containsL lower "darwin".data || containsL lower "macos".data ||
      format = some "dmg" || format = some "pkg" || format = some "app" then
    some .macos
  else if containsL lower "linux".data || format = some "deb" || format = some "rpm" ||
      format = some "appimage" then
    some .linux
  else none

/-- Embedding of `inferArchFromAssetName`. -/
def inferArchFromAssetName (fileName : String) : Option TargetArch :=
  let lower := toLowerL fileName.data
  if containsL lower "x86_64".data || containsL lower "amd64".data ||
      containsL lower "x64".data then some .x86_64
  else if containsL lower "aarch64".data || containsL lower "arm64".data then some .aarch64
  else if containsL lower "armv7".data || containsL lower "armhf".data then some .armv7
  else if containsL lower "i686".data || containsL lower "x86".data then some .i686
  else none

def UPDATER_FORMAT_PRIORITY (p : UpdaterPlatformName) : List String :=
  match p with
  | .windows => ["msi", "nsis", "exe"]
  | .linux => ["deb", "appimage", "rpm"]
  | .darwin => ["dmg", "pkg", "app"]
  | .android => ["apk"]
  | .ios => ["ipa"]
  | .ohos => []

def SUPPORTED_UPDATER_FORMATS : List String :=
  ["nsis", "msi", "exe", "deb", "rpm", "appimage", "dmg", "pkg", "app", "apk",
   "ipa", "zip", "tar.gz"]

/-- `Number.MAX_SAFE_INTEGER`. -/
def MAX_SAFE_INTEGER : Nat := 9007199254740991

def idxOf : List String → String → Option Nat
  | [], _ => none
  | x :: rest, s => if x = s then some 0 else (idxOf rest s).map (· + 1)

/-- Embedding of `getUpdaterFormatPriority`. -/
def getUpdaterFormatPriority (platform : UpdaterPlatformName) (format : Option String)
    (preferNsis : Bool) : Nat :=
  match format with
  | none => MAX_SAFE_INTEGER
  | some f =>
    let list :=
      if platform = UpdaterPlatformName.windows then
        (if preferNsis then ["nsis", "msi", "exe"] else ["msi", "nsis", "exe"])
      else UPDATER_FORMAT_PRIORITY platform
    match idxOf list f with
    | some i => i
    | none => MAX_SAFE_INTEGER - 1

structure UpdaterPlatformEntry where
  url : String
  signature : Option String
deriving DecidableEq, Repr

structure UpdaterAssetCandidate where
  assetName : String
  url : String
  platform : UpdaterPlatformName
  arch : TargetArch
  format : Option String
deriving DecidableEq, Repr

structure UpdaterJsonDocument where
  version : String
  notes : String
  pub_date : String
  platforms : List (String × UpdaterPlatformEntry)
deriving DecidableEq, Repr

/-- The result of `JSON.parse` on a previously stored manifest, as read
by `uploadUpdaterJson` (`version`/`notes`/`pub_date` field reads and the
`platforms` object); `none` fields model missing or non-string values. -/
structure RawManifestEntry where
  url : Option String
  signature : Option String
deriving DecidableEq, Repr

structure RawManifest where
  version : Option String
  notes : Option String
  pub_date : Option String
  platforms : List (String × RawManifestEntry)
deriving DecidableEq, Repr

/-! ### Association-list maps with JS object/Map update semantics -/

def lookupA {α : Type} (l : List (String × α)) (k : String) : Option α :=
  (l.find? (fun kv => kv.1 = k)).map (fun kv => kv.2)

def upsertA {α : Type} : List (String × α) → String → α → List (String × α)
  | [], k, v => [(k, v)]
  | (k0, v0) :: rest, k, v =>
    if k0 = k then (k, v) :: rest else (k0, v0) :: upsertA rest k v

/-- Lookup that returns the value of the *last* binding of a key, the
semantics of `new Map(entries).get` for duplicate entry keys. -/
def lookupLastA {α : Type} (l : List (String × α)) (k : String) : Option α :=
  lookupA l.reverse k

/-- Embedding of `normalizeUpdaterPlatforms`. -/
def normalizeUpdaterPlatforms (v : List (String × RawManifestEntry)) :
    List (String × UpdaterPlatformEntry) :=
  v.foldl
    (fun result kv =>
      let url := trimToString kv.2.url
      if url.data.isEmpty then result
      else
        let signature := trimToString kv.2.signature
        upsertA result kv.1
          (UpdaterPlatformEntry.mk url
            (if signature.data.isEmpty then none else some signature)))
    []

/-- Embedding of `resolveUpdaterVersion`. -/
def resolveUpdaterVersion (appVersion : Option String) (releaseTagName : Option String)
    (existingVersion : Option String) : String :=
  let fromAppVersion := trimToString appVersion
  if !fromAppVersion.data.isEmpty then fromAppVersion
  else
    let normalizedTag := normalizeTagName (trimToString releaseTagName)
    if !normalizedTag.data.isEmpty then
      (if startsWithL normalizedTag.data "v".data then
        String.mk (normalizedTag.data.drop 1)
      else normalizedTag)
    else
      let fromExisting := trimToString existingVersion
      if !fromExisting.data.isEmpty then fromExisting else "0.0.0"

/-! ### Download URLs -/

def isUnreservedURIChar (c : Char) : Bool :=
  ('A' ≤ c && c ≤ 'Z') || ('a' ≤ c && c ≤ 'z') || ('0' ≤ c && c ≤ '9') ||
    c = '-' || c = '_' || c = '.' || c = '!' || c = '~' || c = '*' ||
    c = '\'' || c = '(' || c = ')'

def utf8Bytes (c : Char) : List Nat :=
  let n := c.toNat
  if n < 0x80 then [n]
  else if n < 0x800 then [0xC0 + n / 64, 0x80 + n % 64]
  else if n < 0x10000 then [0xE0 + n / 4096, 0x80 + (n / 64) % 64, 0x80 + n % 64]
  else [0xF0 + n / 262144, 0x80 + (n / 4096) % 64, 0x80 + (n / 64) % 64, 0x80 + n % 64]

def hexDigitUpper (n : Nat) : Char :=
  if n < 10 then Char.ofNat (48 + n) else Char.ofNat (55 + n)

/-- `encodeURIComponent` (percent-encoding of UTF-8 bytes outside the
unreserved set). -/
def encodeURIComponentL (l : List Char) : List Char :=
  (l.map (fun c =>
    if isUnreservedURIChar c then [c]
    else ((utf8Bytes c).map
      (fun b => ['%', hexDigitUpper (b / 16), hexDigitUpper (b % 16)])).flatten)).flatten

/-- Embedding of `buildReleaseAssetDownloadUrl`. -/
def buildReleaseAssetDownloadUrl (owner repo : String) (tagName : Option String)
    (assetName : Option String) : Option String :=
  let tag := normalizeTagName (trimToString tagName)
  let name := trimToString assetName
  if tag.data.isEmpty || name.data.isEmpty then none
  else
    some (String.mk ("https://github.com/".data ++ owner.data ++ "/".data ++ repo.data ++
      "/releases/download/".data ++ tag.data ++ "/".data ++ encodeURIComponentL name.data))

/-! ### Candidate construction and entry resolution -/

/-- `new Map(uploadedAssets.map(a => [a.name, a])).get(name)`: the last
entry of a duplicated key wins. -/
def uploadedByName (uploadedAssets : List UploadedRec) (name : String) :
    Option UploadedRec :=
  uploadedAssets.reverse.find? (fun u => u.name = name)

/-- Embedding of `buildUpdaterCandidateFromReleaseAsset`. -/
def buildUpdaterCandidateFromReleaseAsset (asset : RemoteAsset)
    (uploadedAssets : List UploadedRec) (releaseAssetUrl : RemoteAsset → String) :
    Option UpdaterAssetCandidate :=
  if isUpdaterJsonAssetName asset.name || isSignatureAssetName asset.name then none
  else
    let uploaded := uploadedByName uploadedAssets asset.name
    let inferred :
        Option TargetPlatform × Option TargetArch × Option String :=
      match uploaded with
      | some u =>
        let platform := u.artifact.platform
        let format :=
          (inferUpdaterFormat u.uploadPath (some platform)).orElse
            (fun _ => inferUpdaterFormat asset.name (some platform))
        (some platform, some u.artifact.arch, format)
      | none =>
        let format0 := inferUpdaterFormat asset.name none
        let platform := inferPlatformFromAssetName asset.name format0
        let arch := inferArchFromAssetName asset.name
        let format :=
          match platform, format0 with
          | some _, none => inferUpdaterFormat asset.name platform
          | _, _ => format0
        (platform, arch, format)
    match inferred.1, inferred.2.1 with
    | some platform, some arch =>
      let supportedFmt :=
        match inferred.2.2 with
        | none => false
        | some f => decide (f ∈ SUPPORTED_UPDATER_FORMATS)
      if uploaded.isNone && !supportedFmt then none
      else
        some ⟨asset.name, releaseAssetUrl asset, toUpdaterPlatformName platform,
          arch, inferred.2.2⟩
    | _, _ => none

/-- The tag used for updater download URLs
(`trimToString(releaseTagName) || trimToString(release.data.tag_name)`,
normalized). -/
def resolvedTagOf (release : RemoteRelease) (releaseTagName : Option String) : String :=
  let t1 := trimToString releaseTagName
  normalizeTagName (if t1.data.isEmpty then trimToString release.tag_name else t1)

def releaseAssetUrlOf (owner repo : String) (resolvedTag : String)
    (a : RemoteAsset) : String :=
  (buildReleaseAssetDownloadUrl owner repo (some resolvedTag) (some a.name)).getD
    a.browser_download_url

/-- The candidate list of `uploadUpdaterJson`: every current release
asset, mapped and filtered. -/
def updaterCandidatesOf (owner repo : String) (release : RemoteRelease)
    (releaseTagName : Option String) (uploadedAssets : List UploadedRec) :
    List UpdaterAssetCandidate :=
  release.assets.filterMap
    (fun a => buildUpdaterCandidateFromReleaseAsset a uploadedAssets
      (releaseAssetUrlOf owner repo (resolvedTagOf release releaseTagName)))

/-- `signatureByAssetName`: base name → signature asset (last wins). -/
def signatureByAssetName (assets : List RemoteAsset) :
    List (String × RemoteAsset) :=
  assets.foldl
    (fun m a =>
      if isSignatureAssetName a.name then
        let baseName := String.mk (a.name.data.take (a.name.data.length - 4))
        if baseName.data.isEmpty then m else upsertA m baseName a
      else m)
    []

/-- `getSignatureForAsset`: the trimmed downloaded text of the sibling
`.sig` asset, or `none`. -/
def getSignatureForAsset (assets : List RemoteAsset) (assetName : String) :
    Option String :=
  match lookupA (signatureByAssetName assets) assetName with
  | none => none
  | some sigAsset =>
    let t := trimToString (some sigAsset.text)
    if t.data.isEmpty then none else some t

structure EntryAcc where
  baseE : List (String × (Nat × UpdaterPlatformEntry))
  specE : List (String × UpdaterPlatformEntry)
deriving DecidableEq, Repr

/-- One iteration of the candidate loop: record the format-specific entry
and keep the best-priority entry per base key. -/
def stepEntries (assets : List RemoteAsset) (preferNsis : Bool)
    (acc : EntryAcc) (candidate : UpdaterAssetCandidate) : EntryAcc :=
  let signature := getSignatureForAsset assets candidate.assetName
  let entry := UpdaterPlatformEntry.mk candidate.url signature
  let baseKey := String.mk ((updaterPlatformNameStr candidate.platform).data ++
    "-".data ++ (archStr candidate.arch).data)
  let spec1 :=
    match candidate.format with
    | some f => upsertA acc.specE (String.mk (baseKey.data ++ "-".data ++ f.data)) entry
    | none => acc.specE
  let priority := getUpdaterFormatPriority candidate.platform candidate.format preferNsis
  let base1 :=
    match lookupA acc.baseE baseKey with
    | none => upsertA acc.baseE baseKey (priority, entry)
    | some existing =>
      if priority < existing.1 then upsertA acc.baseE baseKey (priority, entry)
      else acc.baseE
  EntryAcc.mk base1 spec1

/-- The merged `platforms` object: previous document's keys, overwritten
by the base-key winners, overwritten by the format-specific keys. -/
def mergedPlatforms (existing : List (String × UpdaterPlatformEntry))
    (baseE : List (String × (Nat × UpdaterPlatformEntry)))
    (specE : List (String × UpdaterPlatformEntry)) :
    List (String × UpdaterPlatformEntry) :=
  specE.foldl (fun m kv => upsertA m kv.1 kv.2)
    (baseE.foldl (fun m kv => upsertA m kv.1 kv.2.2) existing)

/-- JS `a || b` on plain strings. -/
def jsOrStr (a b : String) : String := if a.data.isEmpty then b else a

/-- Embedding of `uploadUpdaterJson`.  `existingParse` models the result
of downloading and `JSON.parse`-ing the stored `latest.json` asset
(`none` = parse failure, which the source recovers from by starting
empty); `now` models `new Date().toISOString()`.  Signature downloads and
the manifest download are reads and are not traced; the returned trace
holds the release fetch, the asset listings and every mutation.  Returns
the trace, and on success the final store and the written document
(`none` when the run skipped writing). -/
def uploadUpdaterJson (st : RemoteState) (releaseId : Nat)
    (appVersion releaseTagName releaseBody releaseCreatedAt : Option String)
    (uploadedAssets : List UploadedRec) (preferNsis : Bool)
    (owner repo : String) (existingParse : Option RawManifest) (now : String) :
    List ROp × Except String (RemoteState × Option UpdaterJsonDocument) :=
  match st.releases.find? (fun r => r.id = releaseId) with
  | none => ([ROp.getRelease releaseId], Except.error "release not found")
  | some release =>
    let releaseAssets := release.assets
    let parsed :=
      match releaseAssets.reverse.find? (fun a => a.name = "latest.json") with
      | some _ => existingParse
      | none => none
    let existingVersion :=
      match parsed with
      | some pm => trimToString pm.version
      | none => ""
    let existingNotes :=
      match parsed with
      | some pm => trimToString pm.notes
      | none => ""
    let existingPubDate :=
      match parsed with
      | some pm => trimToString pm.pub_date
      | none => ""
    let existingPlatforms :=
      match parsed with
      | some pm => normalizeUpdaterPlatforms pm.platforms
      | none => []
    let candidates := updaterCandidatesOf owner repo release releaseTagName uploadedAssets
    if candidates.isEmpty then
      ([ROp.getRelease releaseId, ROp.listAssets releaseId], Except.ok (st, none))
    else
      let acc := candidates.foldl (stepEntries releaseAssets preferNsis) (EntryAcc.mk [] [])
      let platforms := mergedPlatforms existingPlatforms acc.baseE acc.specE
      let payload : UpdaterJsonDocument :=
        { version := resolveUpdaterVersion appVersion releaseTagName (some existingVersion),
          notes := jsOrStr (trimToString releaseBody)
            (jsOrStr existingNotes "Draft release, will be updated later."),
          pub_date := jsOrStr (trimToString releaseCreatedAt) (jsOrStr existingPubDate now),
          platforms := platforms }
      let current := releaseAssetsOf st releaseId
      let delOps :=
        match current.find? (fun a => isUpdaterJsonAssetName a.name) with
        | some stale => [ROp.deleteAsset stale.id]
        | none => []
      let afterDel :=
        match current.find? (fun a => isUpdaterJsonAssetName a.name) with
        | some stale => current.filter (fun a => decide (a.id ≠ stale.id))
        | none => current
      let newAsset := RemoteAsset.mk st.nextId "latest.json" "bdu/latest.json" ""
      let st1 := setReleaseAssets { st with nextId := st.nextId + 1 } releaseId
        (afterDel ++ [newAsset])
      (([ROp.getRelease releaseId, ROp.listAssets releaseId, ROp.listAssets releaseId] ++
          delOps ++ [ROp.uploadAsset releaseId "latest.json"]),
        Except.ok (st1, some payload))

/-- The document written by a `uploadUpdaterJson` run (`none` when the
run failed or skipped). -/
def writtenDoc (x : List ROp × Except String (RemoteState × Option UpdaterJsonDocument)) :
    Option UpdaterJsonDocument :=
  match x.2 with
  | Except.ok (_, d) => d
  | Except.error _ => none

/-- Lookup of a platform key in the written document. -/
def writtenPlatformEntry
    (x : List ROp × Except String (RemoteState × Option UpdaterJsonDocument))
    (k : String) : Option UpdaterPlatformEntry :=
  match writtenDoc x with
  | some d => lookupA d.platforms k
  | none => none

/-- C10: when no current release asset yields an updater candidate,
`uploadUpdaterJson` returns after its reads: the store (and so any
existing `latest.json` asset) is untouched, nothing is written, and the
trace holds no mutation. -/
theorem uploadUpdaterJson_skips_without_candidates (st : RemoteState) (releaseId : Nat)
    (appVersion releaseTagName releaseBody releaseCreatedAt : Option String)
    (uploadedAssets : List UploadedRec) (preferNsis : Bool) (owner repo : String)
    (existingParse : Option RawManifest) (now : String) (r : RemoteRelease)
    (hrel : st.releases.find? (fun x => x.id = releaseId) = some r)
    (hcand : updaterCandidatesOf owner repo r releaseTagName uploadedAssets = []) :
    uploadUpdaterJson st releaseId appVersion releaseTagName releaseBody releaseCreatedAt
        uploadedAssets preferNsis owner repo existingParse now =
      ([ROp.getRelease releaseId, ROp.listAssets releaseId], Except.ok (st, none)) ∧
    (∀ op ∈ (uploadUpdaterJson st releaseId appVersion releaseTagName releaseBody
        releaseCreatedAt uploadedAssets preferNsis owner repo existingParse now).1,
      op.isMutation = false) := by
  have heq : uploadUpdaterJson st releaseId appVersion releaseTagName releaseBody
      releaseCreatedAt uploadedAssets preferNsis owner repo existingParse now =
      ([ROp.getRelease releaseId, ROp.listAssets releaseId], Except.ok (st, none)) := by
    simp only [uploadUpdaterJson, hrel, hcand]
    rfl
  refine ⟨heq, ?_⟩
  rw [heq]
  intro op hop
  rcases List.mem_cons.mp hop with h | h
  · rw [h]; rfl
  · rcases List.mem_cons.mp h with h2 | h2
    · rw [h2]; rfl
    · simp at h2

/-- C10 witness: a release whose assets are only the manifest itself and
an unmappable `README` file. -/
theorem uploadUpdaterJson_skips_without_candidates_witness :
    uploadUpdaterJson
        (RemoteState.mk
          [RemoteRelease.mk 9 "u9" none none false false (some "v1") (some 10)
            [RemoteAsset.mk 90 "latest.json" "bdu/latest.json" "",
             RemoteAsset.mk 91 "README" "bdu/README" ""]]
          [] 100 50)
        9 none none none none [] false "o" "r" none "2026-01-01T00:00:00Z" =
      ([ROp.getRelease 9, ROp.listAssets 9],
        Except.ok
          (RemoteState.mk
            [RemoteRelease.mk 9 "u9" none none false false (some "v1") (some 10)
              [RemoteAsset.mk 90 "latest.json" "bdu/latest.json" "",
               RemoteAsset.mk 91 "README" "bdu/README" ""]]
            [] 100 50, none)) ∧
    (∀ op ∈ (uploadUpdaterJson
        (RemoteState.mk
          [RemoteRelease.mk 9 "u9" none none false false (some "v1") (some 10)
            [RemoteAsset.mk 90 "latest.json" "bdu/latest.json" "",
             RemoteAsset.mk 91 "README" "bdu/README" ""]]
          [] 100 50)
        9 none none none none [] false "o" "r" none "2026-01-01T00:00:00Z").1,
      op.isMutation = false) :=
  uploadUpdaterJson_skips_without_candidates _ 9 none none none none [] false "o" "r"
    none "2026-01-01T00:00:00Z"
    (RemoteRelease.mk 9 "u9" none none false false (some "v1") (some 10)
      [RemoteAsset.mk 90 "latest.json" "bdu/latest.json" "",
       RemoteAsset.mk 91 "README" "bdu/README" ""])
    (by decide) (by decide)

/-! ### Merge lookup characterization (claim C3 support) -/

theorem lookupA_upsertA {α : Type} (l : List (String × α)) (k : String) (v : α)
    (k' : String) :
    lookupA (upsertA l k v) k' = if k = k' then some v else lookupA l k' := by
  induction l with
  | nil =>
    by_cases h : k = k' <;> simp [upsertA, lookupA, List.find?, h]
  | cons p rest ih =>
    obtain ⟨k0, v0⟩ := p
    simp only [upsertA]
    by_cases h0 : k0 = k
    · simp only [h0, if_true]
      by_cases h1 : k = k'
      · simp [lookupA, List.find?, h1]
      · simp [lookupA, List.find?, h1]
    · simp only [h0, Bool.false_eq_true, if_false]
      by_cases h1 : k0 = k'
      · have h2 : ¬ (k = k') := fun he => h0 (h1.trans he.symm)
        simp [lookupA, List.find?, h1, h2]
      · simp only [lookupA, List.find?] at ih ⊢
        simp only [h1, decide_False]
        simpa [h1] using ih

theorem lookupA_append {α : Type} (l1 l2 : List (String × α)) (k : String) :
    lookupA (l1 ++ l2) k = (lookupA l1 k).or (lookupA l2 k) := by
  unfold lookupA
  rw [List.find?_append]
  cases l1.find? (fun kv => kv.1 = k) <;> simp

theorem lookupA_foldl_upsert {α : Type} (items : List (String × α))
    (init : List (String × α)) (k : String) :
    lookupA (items.foldl (fun m kv => upsertA m kv.1 kv.2) init) k =
      match lookupLastA items k with
      | some v => some v
      | none => lookupA init k := by
  induction items generalizing init with
  | nil => simp [lookupLastA, lookupA, List.find?]
  | cons p rest ih =>
    obtain ⟨k0, v0⟩ := p
    rw [List.foldl_cons]
    rw [ih]
    have hlast : lookupLastA ((k0, v0) :: rest) k =
        (lookupLastA rest k).or (if k0 = k then some v0 else none) := by
      unfold lookupLastA
      rw [List.reverse_cons, lookupA_append]
      congr 1
      simp [lookupA, List.find?]
      by_cases h : k0 = k <;> simp [h]
    rw [hlast, lookupA_upsertA]
    cases hr : lookupLastA rest k with
    | some v => simp
    | none =>
      by_cases h : k0 = k <;> simp [h]

theorem lookupA_map_snd {α β : Type} (g : α → β) (l : List (String × α)) (k : String) :
    lookupA (l.map (fun kv => (kv.1, g kv.2))) k = (lookupA l k).map g := by
  induction l with
  | nil => simp [lookupA, List.find?]
  | cons p rest ih =>
    obtain ⟨k0, v0⟩ := p
    by_cases h : k0 = k
    · simp [lookupA, List.find?, h]
    · simp only [lookupA, List.find?, List.map_cons] at ih ⊢
      simp only [h, decide_False]
      simpa [h] using ih

theorem mergedPlatforms_lookup (E : List (String × UpdaterPlatformEntry))
    (B : List (String × (Nat × UpdaterPlatformEntry)))
    (S : List (String × UpdaterPlatformEntry)) (k : String) :
    lookupA (mergedPlatforms E B S) k =
      match lookupLastA S k with
      | some v => some v
      | none =>
        match lookupLastA B k with
        | some pv => some pv.2
        | none => lookupA E k := by
  unfold mergedPlatforms
  rw [lookupA_foldl_upsert]
  have hB : B.foldl (fun m kv => upsertA m kv.1 kv.2.2) E =
      (B.map (fun kv => (kv.1, kv.2.2))).foldl (fun m kv => upsertA m kv.1 kv.2) E := by
    rw [List.foldl_map]
  rw [hB, lookupA_foldl_upsert]
  have hBlast : lookupLastA (B.map (fun kv => (kv.1, kv.2.2))) k =
      (lookupLastA B k).map (fun pv => pv.2) := by
    unfold lookupLastA
    rw [← List.map_reverse, lookupA_map_snd]
  rw [hBlast]
  cases lookupLastA S k with
  | some v => rfl
  | none =>
    cases lookupLastA B k with
    | some pv => rfl
    | none => rfl

/-- C3: manifest merging overwrites exactly the keys written by this run
and preserves every other old key; with default priority
(`preferNsis = false`) a freshly uploaded `.msi` beats the prior `.nsis`
installer for the `windows-x86_64` base key, while the
`windows-x86_64-nsis` format key still carries the `.nsis` entry and an
untouched old key (`darwin-aarch64`) is preserved verbatim. -/
theorem uploadUpdaterJson_merge_priority :
    (∀ (E : List (String × UpdaterPlatformEntry))
        (B : List (String × (Nat × UpdaterPlatformEntry)))
        (S : List (String × UpdaterPlatformEntry)) (k : String),
      (lookupLastA S k = none → lookupLastA B k = none →
        lookupA (mergedPlatforms E B S) k = lookupA E k) ∧
      (∀ v, lookupLastA S k = some v → lookupA (mergedPlatforms E B S) k = some v) ∧
      (∀ p v, lookupLastA S k = none → lookupLastA B k = some (p, v) →
        lookupA (mergedPlatforms E B S) k = some v)) ∧
    (writtenPlatformEntry
        (uploadUpdaterJson
          (RemoteState.mk
            [RemoteRelease.mk 3 "u3" none none false false (some "v1.0.0") (some 10)
              [RemoteAsset.mk 30 "latest.json" "bdu/latest.json" "",
               RemoteAsset.mk 31 "App-1.0.0-x64-setup.exe" "bdu/setup" "",
               RemoteAsset.mk 32 "App-1.2.3.msi" "bdu/msi" ""]]
            [] 100 50)
          3 (some "1.2.3") none none none
          [UploadedRec.mk 32 "App-1.2.3.msi" "bdu/msi"
            ⟨"App-1.2.3.msi", .release, "1.2.3", .windows, .x86_64⟩ "App-1.2.3.msi"]
          false "o" "r"
          (some (RawManifest.mk (some "1.0.0") (some "old notes") (some "2020-01-01")
            [("windows-x86_64", RawManifestEntry.mk
              (some "https://github.com/o/r/releases/download/v1.0.0/App-1.0.0-x64-setup.exe")
              none),
             ("darwin-aarch64", RawManifestEntry.mk (some "https://old/mac.dmg") none)]))
          "2026-01-01T00:00:00Z")
        "windows-x86_64" =
      some (UpdaterPlatformEntry.mk
        "https://github.com/o/r/releases/download/v1.0.0/App-1.2.3.msi" none) ∧
     writtenPlatformEntry
        (uploadUpdaterJson
          (RemoteState.mk
            [RemoteRelease.mk 3 "u3" none none false false (some "v1.0.0") (some 10)
              [RemoteAsset.mk 30 "latest.json" "bdu/latest.json" "",
               RemoteAsset.mk 31 "App-1.0.0-x64-setup.exe" "bdu/setup" "",
               RemoteAsset.mk 32 "App-1.2.3.msi" "bdu/msi" ""]]
            [] 100 50)
          3 (some "1.2.3") none none none
          [UploadedRec.mk 32 "App-1.2.3.msi" "bdu/msi"
            ⟨"App-1.2.3.msi", .release, "1.2.3", .windows, .x86_64⟩ "App-1.2.3.msi"]
          false "o" "r"
          (some (RawManifest.mk (some "1.0.0") (some "old notes") (some "2020-01-01")
            [("windows-x86_64", RawManifestEntry.mk
              (some "https://github.com/o/r/releases/download/v1.0.0/App-1.0.0-x64-setup.exe")
              none),
             ("darwin-aarch64", RawManifestEntry.mk (some "https://old/mac.dmg") none)]))
          "2026-01-01T00:00:00Z")
        "windows-x86_64-nsis" =
      some (UpdaterPlatformEntry.mk
        "https://github.com/o/r/releases/download/v1.0.0/App-1.0.0-x64-setup.exe" none) ∧
     writtenPlatformEntry
        (uploadUpdaterJson
          (RemoteState.mk
            [RemoteRelease.mk 3 "u3" none none false false (some "v1.0.0") (some 10)
              [RemoteAsset.mk 30 "latest.json" "bdu/latest.json" "",
               RemoteAsset.mk 31 "App-1.0.0-x64-setup.exe" "bdu/setup" "",
               RemoteAsset.mk 32 "App-1.2.3.msi" "bdu/msi" ""]]
            [] 100 50)
          3 (some "1.2.3") none none none
          [UploadedRec.mk 32 "App-1.2.3.msi" "bdu/msi"
            ⟨"App-1.2.3.msi", .release, "1.2.3", .windows, .x86_64⟩ "App-1.2.3.msi"]
          false "o" "r"
          (some (RawManifest.mk (some "1.0.0") (some "old notes") (some "2020-01-01")
            [("windows-x86_64", RawManifestEntry.mk
              (some "https://github.com/o/r/releases/download/v1.0.0/App-1.0.0-x64-setup.exe")
              none),
             ("darwin-aarch64", RawManifestEntry.mk (some "https://old/mac.dmg") none)]))
          "2026-01-01T00:00:00Z")
        "darwin-aarch64" =
      some (UpdaterPlatformEntry.mk "https://old/mac.dmg" none)) := by
  constructor
  · intro E B S k
    refine ⟨?_, ?_, ?_⟩
    · intro hS hB
      rw [mergedPlatforms_lookup, hS, hB]
    · intro v hS
      rw [mergedPlatforms_lookup, hS]
    · intro p v hS hB
      rw [mergedPlatforms_lookup, hS, hB]
  · refine ⟨?_, ?_, ?_⟩ <;> decide

/-- C3 witness: the general merge facts applied at concrete maps — a
specific-key write wins, and an unwritten old key survives. -/
theorem uploadUpdaterJson_merge_priority_witness :
    lookupA (mergedPlatforms
        [("darwin-aarch64", UpdaterPlatformEntry.mk "https://old/mac.dmg" none)]
        []
        [("windows-x86_64", UpdaterPlatformEntry.mk "https://new/app.msi" none)])
      "windows-x86_64" =
      some (UpdaterPlatformEntry.mk "https://new/app.msi" none) ∧
    lookupA (mergedPlatforms
        [("darwin-aarch64", UpdaterPlatformEntry.mk "https://old/mac.dmg" none)]
        []
        [("windows-x86_64", UpdaterPlatformEntry.mk "https://new/app.msi" none)])
      "darwin-aarch64" =
      some (UpdaterPlatformEntry.mk "https://old/mac.dmg" none) :=
  ⟨(uploadUpdaterJson_merge_priority.1
      [("darwin-aarch64", UpdaterPlatformEntry.mk "https://old/mac.dmg" none)]
      []
      [("windows-x86_64", UpdaterPlatformEntry.mk "https://new/app.msi" none)]
      "windows-x86_64").2.1
      (UpdaterPlatformEntry.mk "https://new/app.msi" none) (by decide),
   (uploadUpdaterJson_merge_priority.1
      [("darwin-aarch64", UpdaterPlatformEntry.mk "https://old/mac.dmg" none)]
      []
      [("windows-x86_64", UpdaterPlatformEntry.mk "https://new/app.msi" none)]
      "darwin-aarch64").1 (by decide) (by decide)⟩
